import Mathlib

/-!
Shallow embedding of the `nclist` crate (`src/lib.rs`): a nested containment
list over half-open intervals, with three query operations (count, unordered
iteration, start-ordered iteration) built on a shared binary-search primitive.

Conventions of the embedding:
* Interval coordinates are `Nat` (the crate is generic over an `Ord` coordinate;
  the crate's own tests instantiate it at `u64`).  The Rust field `end` is
  called `stop` here because `end` is a Lean keyword.
* The borrowed slice views of the Rust iterators are represented as explicit
  (start-index, end-index) pairs into the owning `NClist`, following the
  arena-and-index reading of the same state.
* Slice indexing `intervals[i]` is embedded as `List.getD` with a junk default;
  the safety claims establish that all accesses performed by the code are
  in bounds, where the Rust code would otherwise panic.
* The iterator `next` methods are embedded verbatim as step functions; running
  an iterator to exhaustion is embedded with a fuel parameter returning
  `none` when the fuel runs out, and the run predicates (`ORun`, `CRun`,
  `DRun`) existentially quantify the fuel.  Fuel-monotonicity lemmas show the
  result is independent of the chosen (sufficient) fuel.
-/

deriving instance DecidableEq for Except

namespace NC

/-- A half-open interval `[start, stop)`; embeds the `Interval` capability of
the crate (`start()`/`end()`), instantiated at `Nat` coordinates.  `stop`
stands for the Rust `end`. -/
structure Iv where
  start : Nat
  stop : Nat
deriving DecidableEq, Repr

/-- Overlap of a stored interval `x` with a query `r` under half-open
semantics: `x.start < r.end && r.start < x.end`. -/
def overlapB (r x : Iv) : Bool :=
  decide (x.start < r.stop) && decide (r.start < x.stop)

/-- The sort order used by construction (`v.sort_by` in `From<Vec<T>>`):
ascending start, ties broken by descending end.  `sortLe a b` holds when the
Rust comparator returns `Less` or `Equal` on `(a, b)`. -/
def sortLe (a b : Iv) : Bool :=
  decide (a.start < b.start) || (decide (a.start = b.start) && decide (b.stop ≤ a.stop))

/-- `sortLe` as a relation. -/
def sortRel (a b : Iv) : Prop := sortLe a b = true

instance : DecidableRel sortRel := fun a b =>
  inferInstanceAs (Decidable (sortLe a b = true))

instance : IsTotal Iv sortRel :=
  ⟨fun a b => by simp only [sortRel, sortLe, Bool.or_eq_true, Bool.and_eq_true,
    decide_eq_true_eq]; omega⟩

instance : IsTrans Iv sortRel :=
  ⟨fun a b c hab hbc => by
    simp only [sortRel, sortLe, Bool.or_eq_true, Bool.and_eq_true,
      decide_eq_true_eq] at hab hbc ⊢
    omega⟩

instance : IsAntisymm Iv sortRel :=
  ⟨fun a b hab hba => by
    simp only [sortRel, sortLe, Bool.or_eq_true, Bool.and_eq_true,
      decide_eq_true_eq] at hab hba
    cases a
    cases b
    simp only [Iv.mk.injEq]
    simp only at hab hba
    omega⟩

/-- The built structure: the element sequence plus the parallel sequence of
optional containment links (`NClist<T>` with fields `intervals`,
`contained`). -/
structure NClist where
  intervals : List Iv
  contained : List (Option (Nat × Nat))
deriving DecidableEq, Repr

/-- Element at index `i` (the Rust `self.intervals[i]`), total with a junk
default. -/
def getIv (nc : NClist) (i : Nat) : Iv :=
  nc.intervals.getD i ⟨0, 0⟩

/-- The containment link of the element at index `i`: the Rust code reads it
as `self.contained[i + 1]`. -/
def childLink (nc : NClist) (i : Nat) : Option (Nat × Nat) :=
  nc.contained.getD (i + 1) none

/-- The synthetic root link `self.contained[0].unwrap()`; the embedding
defaults the (never occurring, for a built structure) `None` case to
`(0, 0)`. -/
def rootLink (nc : NClist) : Nat × Nat :=
  (nc.contained.getD 0 none).getD (0, 0)

/-- End coordinates of the sub-range `intervals[s..e]`, the sequence the
binary-search primitive searches. -/
def sliceEnds (nc : NClist) (s e : Nat) : List Nat :=
  ((nc.intervals.drop s).take (e - s)).map (fun x => x.stop)

/-! ### The binary-search primitive

`bin_search_end` calls `slice::binary_search_by`, and the crate pins (by the
copied std test `test_binary_search_implementation_details`) the standard
library implementation for which a search among equal elements returns the
*last* matching index.  `bsLoop`/`rustBinarySearch` embed exactly that
implementation (the halving loop over `(base, size)`). -/

/-- The halving loop of the pinned `binary_search_by` (`while size > 1`):
narrows `(base, size)` until `size = 1`, moving `base` to `mid` whenever the
probed element is not greater than the target.  The loop is driven by a fuel
argument so that the recursion is structural; `size` strictly decreases on
every iteration, so any fuel of at least the initial `size` runs the loop to
completion. -/
def bsLoop (xs : List Nat) (q : Nat) : Nat → Nat → Nat → Nat
  | 0, base, _ => base
  | f + 1, base, size =>
    if size ≤ 1 then base
    else
      let half := size / 2
      let mid := base + half
      bsLoop xs q f (if q < xs.getD mid 0 then base else mid) (size - half)

/-- The pinned `slice::binary_search_by` on a list of end coordinates:
`Except.ok n` is Rust `Ok(n)` (an exact match at the last equal position) and
`Except.error n` is Rust `Err(n)` (the insertion point). -/
def rustBinarySearch (xs : List Nat) (q : Nat) : Except Nat Nat :=
  if xs.length = 0 then .error 0
  else
    let base := bsLoop xs q xs.length 0 xs.length
    let v := xs.getD base 0
    if v = q then .ok base
    else if v < q then .error (base + 1)
    else .error base

/-- The `Ok(n) => n + 1, Err(n) => n` combination applied by
`NClist::bin_search_end` and `NClist::slice` to the search result. -/
def searchIdx (xs : List Nat) (q : Nat) : Nat :=
  match rustBinarySearch xs q with
  | .ok n => n + 1
  | .error n => n

/-- `NClist::bin_search_end(start, end, q)`: the offset into
`intervals[start..end]` obtained from the binary search as
`Ok(n) => n + 1, Err(n) => n`. -/
def binSearchEnd (nc : NClist) (s e q : Nat) : Nat :=
  searchIdx (sliceEnds nc s e) q

/-- `start + bin_search_end(start, end, q)`: the absolute index after skipping
the prefix of `intervals[start..end]` ending at or before `q` (this is the
`start +=` performed by `NClist::slice` and by the queue pops of the
iterators). -/
def skipTo (nc : NClist) (s e qs : Nat) : Nat :=
  s + binSearchEnd nc s e qs

/-! ### Construction -/

/-- `NClistBuilder`: one pending group of the construction queue, tagged with
the index of the `contained` slot that will receive its slice range. -/
structure NClistBuilder where
  intervals : List Iv
  contained_pos : Nat
deriving DecidableEq, Repr

/-- The scan of one group performed by `build_nclist`, fuel-driven: each
element `e` becomes an owner, paired with the run of immediately following
elements whose end is strictly below `e`'s end
(`peeking_take_while(|n| n.end() < e.end())`), and the scan continues after
that run.  Each step consumes at least one element, so any fuel of at least
the list length completes the scan. -/
def groupRunsF : Nat → List Iv → List (Iv × List Iv)
  | _, [] => []
  | 0, _ :: _ => []
  | f + 1, e :: rest =>
    (e, rest.takeWhile (fun n => decide (n.stop < e.stop))) ::
      groupRunsF f (rest.dropWhile (fun n => decide (n.stop < e.stop)))

/-- The scan of one group performed by `build_nclist` (the sufficient fuel
instantiated). -/
def groupRuns (l : List Iv) : List (Iv × List Iv) :=
  groupRunsF l.length l


/-- One step of `build_nclist`: pop a builder, append the owners of its group
to the element sequence (with `None` links), queue a new builder for every
non-empty contained run (owner at result position `base + i` gets builder slot
`base + i + 1`), and finally store the group's slice range at the builder's
`contained_pos`. -/
def buildStep (res : NClist) (b : NClistBuilder) : NClist × List NClistBuilder :=
  let base := res.intervals.length
  let runs := groupRuns b.intervals
  let os := runs.map Prod.fst
  let nbs := runs.enum.filterMap fun p =>
    if p.2.2.isEmpty then none
    else some ⟨p.2.2, base + p.1 + 1⟩
  ({ intervals := res.intervals ++ os,
     contained := (res.contained ++ os.map fun _ => none).set b.contained_pos
       (some (base, base + os.length)) },
   nbs)

/-- Queue measure used for the termination of the construction loop. -/
def bSize (b : NClistBuilder) : Nat := b.intervals.length + 1


/-- The construction loop of `From<Vec<T>>` (`while !sublists.is_empty()`),
fuel-driven: repeatedly `build_nclist` until the builder queue is empty.  The
queue measure `Σ (length + 1)` strictly decreases at each step
(`buildStep_measure`), so any fuel of at least the initial measure runs the
loop to completion. -/
def buildAllF : Nat → List NClistBuilder → NClist → NClist
  | _, [], res => res
  | 0, _ :: _, res => res
  | f + 1, b :: bs, res =>
    let p := buildStep res b
    buildAllF f (bs ++ p.2) p.1

/-- The construction loop of `From<Vec<T>>` (the sufficient fuel
instantiated). -/
def buildAll (qs : List NClistBuilder) (res : NClist) : NClist :=
  buildAllF ((qs.map bSize).sum) qs res


/-- `NClist::new()`. -/
def NClist.new : NClist := { intervals := [], contained := [some (0, 0)] }

/-- The single error kind of the crate: construction received an interval with
`end <= start` (the Rust code panics with "Cannot use intervals with zero or
negative width"; the spec names this failure `InvalidInterval`). -/
inductive NCError where
  | invalidInterval
deriving DecidableEq, Repr

/-- `From<Vec<T>> for NClist<T>`: validate all intervals, sort by ascending
start with ties broken by descending end, then run the construction loop
seeded with one group holding everything, targeted at the root slot `0`.

Rust `sort_by` is a stable sort by the comparator; the embedding uses
insertion sort, which is also stable.  (At this element type stability is
moreover unobservable: the comparator is antisymmetric up to equality of the
interval values, so all sorts by it agree.) -/
def fromVec (v : List Iv) : Except NCError NClist :=
  if v.any (fun e => decide (e.stop ≤ e.start)) then .error .invalidInterval
  else .ok (buildAll [⟨v.insertionSort sortRel, 0⟩] NClist.new)

/-- `Into<Vec<T>> for NClist<T>` / `into_vec`: returns the element sequence. -/
def intoVec (nc : NClist) : List Iv := nc.intervals

/-! ### The unordered overlaps iterator -/

/-- State of the `Overlaps` iterator: current slice cursor and the FIFO queue
of pending sub-slice ranges. -/
structure OvState where
  current_pos : Nat
  current_end : Nat
  sublists : List (Nat × Nat)
deriving DecidableEq, Repr

/-- The body of `Overlaps::next` (structurally recursive on the pending
queue): if the current slice is exhausted (`remaining == 0`) or the element at
the cursor starts at or beyond the query end, pop the next pending sub-slice
(skipping its prefix via the binary search) and retry; otherwise yield the
cursor element, advance, and enqueue its containment link (if any) at the
back. -/
def overlapsNextAux (nc : NClist) (r : Iv) : List (Nat × Nat) → Nat → Nat →
    Option (Nat × OvState)
  | [], pos, e =>
    if e - pos = 0 ∨ r.stop ≤ (getIv nc pos).start then none
    else
      some (pos, ⟨pos + 1, e,
        match childLink nc pos with
        | some se => [se]
        | none => []⟩)
  | (s', e') :: rest, pos, e =>
    if e - pos = 0 ∨ r.stop ≤ (getIv nc pos).start then
      overlapsNextAux nc r rest (skipTo nc s' e' r.start) e'
    else
      some (pos, ⟨pos + 1, e,
        match childLink nc pos with
        | some se => ((s', e') :: rest) ++ [se]
        | none => (s', e') :: rest⟩)

/-- `Overlaps::next`, yielding the index of the produced element. -/
def overlapsNext (nc : NClist) (r : Iv) (st : OvState) : Option (Nat × OvState) :=
  overlapsNextAux nc r st.sublists st.current_pos st.current_end

/-- Run the unordered iterator to exhaustion, with fuel; one unit of fuel per
yielded element (plus one for the final `None`). -/
def runOverlaps (nc : NClist) (r : Iv) : Nat → OvState → Option (List Nat)
  | 0, _ => none
  | f + 1, st =>
    match overlapsNext nc r st with
    | none => some []
    | some (i, st') => (runOverlaps nc r f st').map (i :: ·)

/-- `NClist::overlaps`: initial iterator state; for a valid query the root
slice prefix is skipped via the binary search, otherwise the cursor starts
exhausted. -/
def overlapsInit (nc : NClist) (r : Iv) : OvState :=
  if r.start < r.stop then
    ⟨skipTo nc (rootLink nc).1 (rootLink nc).2 r.start, (rootLink nc).2, []⟩
  else
    ⟨(rootLink nc).2, (rootLink nc).2, []⟩

/-- The unordered iterator, driven from `overlaps(r)` to exhaustion, yields
(the indices of) `out`. -/
def ORun (nc : NClist) (r : Iv) (out : List Nat) : Prop :=
  ∃ f, runOverlaps nc r f (overlapsInit nc r) = some out

/-! ### count_overlaps -/

/-- The indices scanned in one popped slice `[s, e)`: skip the prefix whose
ends precede the query start, then take elements while their start precedes
the query end (this is the `SlicedNClist` iterator produced by
`NClist::slice`). -/
def sliceScan (nc : NClist) (r : Iv) (s e : Nat) : List Nat :=
  (List.range' (skipTo nc s e r.start) (e - skipTo nc s e r.start)).takeWhile
    (fun i => decide ((getIv nc i).start < r.stop))

/-- The containment links carried by the scanned elements, in scan order
(the sub-ranges pushed onto the queue). -/
def scanChildren (nc : NClist) (scan : List Nat) : List (Nat × Nat) :=
  scan.filterMap (fun i => childLink nc i)

/-- The queue loop of `count_overlaps`: pop a range, add the number of scanned
elements, enqueue their containment links at the back; one unit of fuel per
popped range. -/
def runCount (nc : NClist) (r : Iv) : Nat → List (Nat × Nat) → Nat → Option Nat
  | _, [], acc => some acc
  | 0, _ :: _, _ => none
  | f + 1, (s, e) :: rest, acc =>
    runCount nc r f (rest ++ scanChildren nc (sliceScan nc r s e))
      (acc + (sliceScan nc r s e).length)

/-- `NClist::count_overlaps` with fuel: `0` immediately for an inverted or
empty query, otherwise the queue loop seeded with the root slice. -/
def countOverlapsF (nc : NClist) (r : Iv) (f : Nat) : Option Nat :=
  if r.stop ≤ r.start then some 0
  else runCount nc r f [rootLink nc] 0

/-- `count_overlaps(r)` terminates with count `c`. -/
def CRun (nc : NClist) (r : Iv) (c : Nat) : Prop :=
  ∃ f, countOverlapsF nc r f = some c

/-! ### The ordered overlaps iterator -/

/-- State of the `OrderedOverlaps` iterator: the current slice cursor
(`pos`, exclusive `bound`) plus the LIFO stack of displaced cursors.  The
cursors embed the `SlicedNClist` views (which are always created with
`stop_at = r.end`, so only the index bounds are state). -/
structure OrdState where
  pos : Nat
  bound : Nat
  queue : List (Nat × Nat)
deriving DecidableEq, Repr

/-- The body of `OrderedOverlaps::next` (structurally recursive on the
cursor stack): advance the current cursor; if the yielded element carries a
containment link, immediately descend into it (skipping its non-overlapping
prefix) and push the displaced cursor; on exhaustion pop the most recent
cursor and retry. -/
def orderedNextAux (nc : NClist) (r : Iv) : List (Nat × Nat) → Nat → Nat →
    Option (Nat × OrdState)
  | [], pos, bd =>
    if pos < bd ∧ (getIv nc pos).start < r.stop then
      match childLink nc pos with
      | some (cs, ce) => some (pos, ⟨skipTo nc cs ce r.start, ce, [(pos + 1, bd)]⟩)
      | none => some (pos, ⟨pos + 1, bd, []⟩)
    else none
  | (s', b') :: rest, pos, bd =>
    if pos < bd ∧ (getIv nc pos).start < r.stop then
      match childLink nc pos with
      | some (cs, ce) =>
        some (pos, ⟨skipTo nc cs ce r.start, ce, (pos + 1, bd) :: (s', b') :: rest⟩)
      | none => some (pos, ⟨pos + 1, bd, (s', b') :: rest⟩)
    else orderedNextAux nc r rest s' b'

/-- `OrderedOverlaps::next`, yielding the index of the produced element. -/
def orderedNext (nc : NClist) (r : Iv) (st : OrdState) : Option (Nat × OrdState) :=
  orderedNextAux nc r st.queue st.pos st.bound

/-- Run the ordered iterator to exhaustion, with fuel. -/
def runOrdered (nc : NClist) (r : Iv) : Nat → OrdState → Option (List Nat)
  | 0, _ => none
  | f + 1, st =>
    match orderedNext nc r st with
    | none => some []
    | some (i, st') => (runOrdered nc r f st').map (i :: ·)

/-- `NClist::overlaps_ordered`: the initial cursor is the root slice (emptied
first when the query is inverted), sliced through the binary-search skip. -/
def orderedInit (nc : NClist) (r : Iv) : OrdState :=
  ⟨skipTo nc (if r.stop ≤ r.start then (rootLink nc).2 else (rootLink nc).1)
      (rootLink nc).2 r.start,
   (rootLink nc).2, []⟩

/-- The ordered iterator, driven from `overlaps_ordered(r)` to exhaustion,
yields (the indices of) `out`. -/
def DRun (nc : NClist) (r : Iv) (out : List Nat) : Prop :=
  ∃ f, runOrdered nc r f (orderedInit nc r) = some out

/-- A concrete structure used to instantiate hypotheses of the general
theorems. -/
def ncW : NClist :=
  { intervals := [⟨1, 3⟩, ⟨2, 4⟩, ⟨2, 4⟩, ⟨5, 9⟩],
    contained := [some (0, 4), none, none, none, none] }

/-! ### Structure invariants, and reference traversals used to state them

The following predicates and reference functions are the specification side of
the development: the invariants established by construction, and a
depth-first/breadth-first reading of the containment forest against which the
iterator implementations are verified. -/

/-- Every containment link `(s, e)` is an ordered range inside the element
sequence. -/
def linkBounds (nc : NClist) : Prop :=
  ∀ p s e, nc.contained.getD p none = some (s, e) → s ≤ e ∧ e ≤ nc.intervals.length

/-- The target range of an element's containment link lies strictly after the
element itself (nested groups are appended later than their owner). -/
def linkAfterOwner (nc : NClist) : Prop :=
  ∀ p s e, childLink nc p = some (s, e) → p < s

/-- Within any contiguous slice addressed by a containment link, both the
start and the end coordinates are non-decreasing. -/
def sliceSorted (nc : NClist) : Prop :=
  ∀ p s e, nc.contained.getD p none = some (s, e) →
    ∀ i j, s ≤ i → i ≤ j → j < e →
      (getIv nc i).start ≤ (getIv nc j).start ∧ (getIv nc i).stop ≤ (getIv nc j).stop

/-- Elements of a containment link's range are nested inside the owning
element's span. -/
def linkContained (nc : NClist) : Prop :=
  ∀ p s e, childLink nc p = some (s, e) →
    ∀ j, s ≤ j → j < e →
      (getIv nc p).start ≤ (getIv nc j).start ∧ (getIv nc j).stop < (getIv nc p).stop

/-- The well-formedness facts established by construction and relied upon by
every query. -/
structure WF (nc : NClist) : Prop where
  clen : nc.contained.length = nc.intervals.length + 1
  root : nc.contained.getD 0 none = some (rootLink nc)
  bounds : linkBounds nc
  ownerlt : linkAfterOwner nc
  sorted : sliceSorted nc
  nested : linkContained nc

/-- The invariant of one pending builder relative to the partially built
structure: its target slot is in bounds and not yet holding a non-empty
range, its group is comparator-sorted, and (for a non-root slot) its elements
are nested inside the owning element's span. -/
def BInv (res : NClist) (b : NClistBuilder) : Prop :=
  b.contained_pos < res.contained.length ∧
  (res.contained.getD b.contained_pos none = none ∨
    ∃ k, res.contained.getD b.contained_pos none = some (k, k)) ∧
  b.intervals.Pairwise sortRel ∧
  (1 ≤ b.contained_pos →
    ∀ x ∈ b.intervals,
      (getIv res (b.contained_pos - 1)).start ≤ x.start ∧
      x.stop < (getIv res (b.contained_pos - 1)).stop)

/-- The loop invariant of the construction: the partial structure is
well-formed, every pending builder satisfies `BInv`, and the pending target
slots are pairwise distinct. -/
def Inv (res : NClist) (qs : List NClistBuilder) : Prop :=
  WF res ∧ (∀ b ∈ qs, BInv res b) ∧ (qs.map (fun b => b.contained_pos)).Nodup

/-- Depth-first in-order reading of the containment forest over the slice
`[s, e)`: each index followed by the full reading of its containment link.
Fuel bounds the nesting depth; `none` only on fuel exhaustion. -/
def inorder (nc : NClist) : Nat → Nat → Nat → Option (List Nat)
  | f, s, e =>
    if s < e then
      match f with
      | 0 => none
      | f + 1 =>
        match (match childLink nc s with
               | some (cs, ce) => inorder nc f cs ce
               | none => some []),
          inorder nc (f + 1) (s + 1) e with
        | some c, some t => some (s :: (c ++ t))
        | _, _ => none
    else some []
termination_by f s e => (f, e - s)

/-- The in-order reading of the slice `[s, e)` is the index list `l`. -/
def SubtreeIs (nc : NClist) (s e : Nat) (l : List Nat) : Prop :=
  ∃ f, inorder nc f s e = some l

/-- Depth-first reading of the *pruned* containment forest from a cursor
`(pos, bd)` whose non-overlapping prefix has already been skipped: take
indices while they start before the query end, descending through containment
links after skipping their prefix via the binary search.  This is the
recursion that `OrderedOverlaps` implements with an explicit stack. -/
def dfsCur (nc : NClist) (r : Iv) : Nat → Nat → Nat → Option (List Nat)
  | f, pos, bd =>
    if pos < bd ∧ (getIv nc pos).start < r.stop then
      match f with
      | 0 => none
      | f + 1 =>
        match (match childLink nc pos with
               | some (cs, ce) => dfsCur nc r f (skipTo nc cs ce r.start) ce
               | none => some []),
          dfsCur nc r (f + 1) (pos + 1) bd with
        | some c, some t => some (pos :: (c ++ t))
        | _, _ => none
    else some []
termination_by f pos bd => (f, bd - pos)

/-- The pruned depth-first reading from cursor `(pos, bd)` is `l`. -/
def DfsIs (nc : NClist) (r : Iv) (pos bd : Nat) (l : List Nat) : Prop :=
  ∃ f, dfsCur nc r f pos bd = some l

/-- The remaining scan of a partially consumed slice cursor (no further
binary-search skip): indices from `pos` while their start precedes the query
end.  `sliceScan nc r s e = curScan nc r (skipTo nc s e r.start) e`. -/
def curScan (nc : NClist) (r : Iv) (pos e : Nat) : List Nat :=
  (List.range' pos (e - pos)).takeWhile (fun i => decide ((getIv nc i).start < r.stop))

/-- `se` occurs as a containment link (the synthetic root included). -/
def IsLink (nc : NClist) (se : Nat × Nat) : Prop :=
  ∃ p, nc.contained.getD p none = some se

/-- The in-order subtree reading with the canonical (always sufficient, for a
well-formed structure) fuel. -/
def subAt (nc : NClist) (s e : Nat) : List Nat :=
  (inorder nc (nc.intervals.length + 1) s e).getD []

/-- The indices of the subtree at `[s, e)` whose elements overlap `r`, in
in-order position. -/
def matchesAt (nc : NClist) (r : Iv) (s e : Nat) : List Nat :=
  (subAt nc s e).filter (fun i => overlapB r (getIv nc i))

/-- Relation between a pending builder and the final structure: its slot got
a range whose subtree reads back exactly the builder's elements. -/
def BuilderOk (nc : NClist) (b : NClistBuilder) (l : List Nat) : Prop :=
  ∃ s e, nc.contained.getD b.contained_pos none = some (s, e) ∧
    SubtreeIs nc s e l ∧ l.map (getIv nc) = b.intervals

/-- Breadth-first reference traversal: process a FIFO queue of slice ranges,
emitting each popped slice's scan as a contiguous chunk and appending the
scanned elements' containment links at the back.  This is the slice-level
reading of the `Overlaps` iterator (and of `count_overlaps`). -/
def bfsRef (nc : NClist) (r : Iv) : Nat → List (Nat × Nat) → Option (List Nat)
  | _, [] => some []
  | 0, _ :: _ => none
  | f + 1, (s, e) :: rest =>
    (bfsRef nc r f (rest ++ scanChildren nc (sliceScan nc r s e))).map
      (sliceScan nc r s e ++ ·)

/-- The breadth-first reference traversal of the queue `qs` yields `l`. -/
def BfsIs (nc : NClist) (r : Iv) (qs : List (Nat × Nat)) (l : List Nat) : Prop :=
  ∃ f, bfsRef nc r f qs = some l

/-- A well-behaved index range: in bounds and sorted by both coordinates
(the facts `WF` gives for every containment-link slice, closed under taking
sub-ranges). -/
def GoodSlice (nc : NClist) (s e : Nat) : Prop :=
  s ≤ e ∧ e ≤ nc.intervals.length ∧
  ∀ i j, s ≤ i → i ≤ j → j < e →
    (getIv nc i).start ≤ (getIv nc j).start ∧ (getIv nc i).stop ≤ (getIv nc j).stop

/-- Denotation of an unordered-iterator state: what remains of the current
slice scan, followed by a breadth-first reading of the pending queue extended
with the containment links the remaining scan will push. -/
def OvDen (nc : NClist) (r : Iv) (st : OvState) (out : List Nat) : Prop :=
  ∃ b, BfsIs nc r
      (st.sublists ++ scanChildren nc (curScan nc r st.current_pos st.current_end)) b ∧
    out = curScan nc r st.current_pos st.current_end ++ b

/-- Denotation of an ordered-iterator state: the pruned depth-first reading of
the current cursor followed by the readings of the stacked cursors, innermost
first. -/
def OrdDen (nc : NClist) (r : Iv) (st : OrdState) (out : List Nat) : Prop :=
  ∃ l0 ls, DfsIs nc r st.pos st.bound l0 ∧
    List.Forall₂ (fun (q : Nat × Nat) lq => DfsIs nc r q.1 q.2 lq) st.queue ls ∧
    out = l0 ++ ls.flatten

/-! ### Concrete fixtures (the crate's own test data) -/

/-- The input of the crate's `duplicate_intervals` test. -/
def vEx : List Iv := [⟨10, 15⟩, ⟨11, 13⟩, ⟨10, 20⟩, ⟨1, 8⟩, ⟨11, 13⟩, ⟨16, 18⟩]

/-- The structure built from `vEx` (checked by `fromVec_vEx`). -/
def ncEx : NClist :=
  { intervals := [⟨1, 8⟩, ⟨10, 20⟩, ⟨10, 15⟩, ⟨16, 18⟩, ⟨11, 13⟩, ⟨11, 13⟩],
    contained := [some (0, 2), none, some (2, 4), some (4, 6), none, none, none] }

/-- The input of the crate's `from_vec`/`count`/`overlaps` tests. -/
def vEx2 : List Iv := [⟨10, 15⟩, ⟨10, 20⟩, ⟨1, 8⟩]

/-- The structure built from `vEx2`. -/
def ncEx2 : NClist :=
  { intervals := [⟨1, 8⟩, ⟨10, 20⟩, ⟨10, 15⟩],
    contained := [some (0, 2), none, some (2, 3), none] }

/-- The structure built from the single interval `[0, 10)`. -/
def ncOne : NClist :=
  { intervals := [⟨0, 10⟩], contained := [some (0, 1), none] }

/-! ### Basic facts about the group scan and the construction loop -/

theorem groupRunsF_nil (f : Nat) : groupRunsF f [] = [] := by
  cases f <;> rfl

theorem groupRunsF_irrel : ∀ (f : Nat) (l : List Iv), l.length ≤ f →
    groupRunsF f l = groupRunsF l.length l := by
  intro f
  induction f using Nat.strong_induction_on with
  | _ f IH =>
    intro l hl
    match l with
    | [] => rw [groupRunsF_nil, groupRunsF_nil]
    | e :: rest =>
      cases f with
      | zero => exact absurd hl (by simp)
      | succ f =>
        simp only [groupRunsF, List.length_cons]
        have hdrop : (rest.dropWhile (fun n => decide (n.stop < e.stop))).length
            ≤ rest.length := (List.dropWhile_sublist _).length_le
        simp only [List.length_cons] at hl
        rw [IH f (by omega) _ (by omega),
          IH rest.length (by omega) _ (by omega)]

/-- The unfolding equation of the group scan. -/
theorem groupRuns_cons (e : Iv) (rest : List Iv) :
    groupRuns (e :: rest) =
      (e, rest.takeWhile (fun n => decide (n.stop < e.stop))) ::
        groupRuns (rest.dropWhile (fun n => decide (n.stop < e.stop))) := by
  have hdrop : (rest.dropWhile (fun n => decide (n.stop < e.stop))).length
      ≤ rest.length := (List.dropWhile_sublist _).length_le
  simp only [groupRuns, List.length_cons, groupRunsF]
  rw [groupRunsF_irrel rest.length _ (by omega)]

theorem groupRuns_flatten_aux : ∀ (n : Nat) (l : List Iv), l.length ≤ n →
    ((groupRuns l).map (fun p => p.1 :: p.2)).flatten = l := by
  intro n
  induction n with
  | zero =>
    intro l hl
    have hnil : l = [] := List.length_eq_zero.mp (by omega)
    subst hnil
    rfl
  | succ n IH =>
    intro l hl
    match l with
    | [] => rfl
    | e :: rest =>
      have hdrop : (rest.dropWhile (fun n => decide (n.stop < e.stop))).length
          ≤ rest.length := (List.dropWhile_sublist _).length_le
      simp only [List.length_cons] at hl
      rw [groupRuns_cons]
      simp only [List.map_cons, List.flatten_cons]
      rw [IH _ (by omega)]
      simp [List.takeWhile_append_dropWhile]

/-- Reassembling the runs recovers the group: each owner is immediately
followed by its contained run. -/
theorem groupRuns_flatten (l : List Iv) :
    ((groupRuns l).map (fun p => p.1 :: p.2)).flatten = l :=
  groupRuns_flatten_aux l.length l (le_refl _)

theorem groupRuns_sum (l : List Iv) :
    ((groupRuns l).map (fun p => p.2.length + 1)).sum = l.length := by
  conv_rhs => rw [← groupRuns_flatten l]
  rw [List.length_flatten]
  congr 1
  simp [Function.comp, Nat.add_comm]

theorem buildStep_measure (res : NClist) (b : NClistBuilder) :
    (((buildStep res b).2.map bSize)).sum < bSize b := by
  have key : ∀ (runs : List (Iv × List Iv)) (n base : Nat),
      (((runs.enumFrom n).filterMap fun p =>
        if p.2.2.isEmpty then none
        else some (NClistBuilder.mk p.2.2 (base + p.1 + 1))).map bSize).sum ≤
      (runs.map (fun p => p.2.length + 1)).sum := by
    intro runs
    induction runs with
    | nil => intro n base; simp
    | cons hd tl ih =>
      intro n base
      simp only [List.enumFrom, List.filterMap_cons]
      by_cases h : hd.2.isEmpty
      · simp only [h, if_pos]
        calc (((tl.enumFrom (n + 1)).filterMap _).map bSize).sum ≤
              (tl.map (fun p => p.2.length + 1)).sum := ih (n + 1) base
          _ ≤ _ := by simp only [List.map_cons, List.sum_cons]; omega
      · simp only [h, if_neg, Bool.false_eq_true, not_false_iff, List.map_cons,
          List.sum_cons, bSize]
        have := ih (n + 1) base
        omega
  have h2 := key (groupRuns b.intervals) 0 res.intervals.length
  rw [groupRuns_sum] at h2
  simp only [buildStep, List.enum, bSize]
  omega

theorem buildAllF_irrel : ∀ (f g : Nat) (qs : List NClistBuilder) (res : NClist),
    (qs.map bSize).sum ≤ f → (qs.map bSize).sum ≤ g →
    buildAllF f qs res = buildAllF g qs res := by
  intro f
  induction f using Nat.strong_induction_on with
  | _ f IH =>
    intro g qs res hf hg
    match qs with
    | [] => cases f <;> cases g <;> rfl
    | b :: bs =>
      have h1 : ((b :: bs).map bSize).sum = (bs.map bSize).sum + (b.intervals.length + 1) := by
        simp only [List.map_cons, List.sum_cons, bSize]
        omega
      cases f with
      | zero => exact absurd hf (by omega)
      | succ f' =>
        cases g with
        | zero => exact absurd hg (by omega)
        | succ g' =>
          simp only [buildAllF]
          have hm := buildStep_measure res b
          have hsum : ((bs ++ (buildStep res b).2).map bSize).sum
              = (bs.map bSize).sum + (((buildStep res b).2).map bSize).sum := by
            simp
          have hm' : (((buildStep res b).2).map bSize).sum < b.intervals.length + 1 := hm
          exact IH f' (by omega) g' _ _ (by omega) (by omega)

/-- The unfolding equation of the construction loop. -/
theorem buildAll_cons (b : NClistBuilder) (bs : List NClistBuilder) (res : NClist) :
    buildAll (b :: bs) res = buildAll (bs ++ (buildStep res b).2) (buildStep res b).1 := by
  have hm := buildStep_measure res b
  have hsum : ((bs ++ (buildStep res b).2).map bSize).sum
      = (bs.map bSize).sum + (((buildStep res b).2).map bSize).sum := by
    simp
  have h1 : ((b :: bs).map bSize).sum = (bs.map bSize).sum + b.intervals.length + 1 := by
    simp [bSize]
    omega
  simp only [buildAll]
  rw [h1]
  simp only [buildAllF]
  exact buildAllF_irrel _ _ _ _ (by simp only [bSize] at hm ⊢; omega) (le_refl _)

/-! ### Correctness of the binary-search primitive -/

/-- In a `≤`-sorted list, indices below `countP (· ≤ q)` hold values `≤ q`. -/
theorem sorted_getD_le_of_lt_countP {xs : List Nat} {q : Nat}
    (hs : xs.Pairwise (· ≤ ·)) {i : Nat}
    (hi : i < xs.countP (fun x => decide (x ≤ q))) :
    xs.getD i 0 ≤ q := by
  induction xs generalizing i with
  | nil => simp at hi
  | cons x t ih =>
    have hx : t.Pairwise (· ≤ ·) := (List.pairwise_cons.mp hs).2
    by_cases hxq : x ≤ q
    · cases i with
      | zero => simpa using hxq
      | succ j =>
        have hi' : j < t.countP (fun x => decide (x ≤ q)) := by
          rw [List.countP_cons] at hi
          simp [hxq] at hi
          omega
        rw [List.getD_cons_succ]
        exact ih hx hi'
    · exfalso
      have hz : t.countP (fun x => decide (x ≤ q)) = 0 := by
        rw [List.countP_eq_zero]
        intro a ha
        have := (List.pairwise_cons.mp hs).1 a ha
        simp only [decide_eq_true_eq]
        omega
      rw [List.countP_cons] at hi
      simp [hxq] at hi
      omega

/-- In a `≤`-sorted list, indices at or above `countP (· ≤ q)` hold values
`> q`. -/
theorem sorted_lt_getD_of_countP_le {xs : List Nat} {q : Nat}
    (hs : xs.Pairwise (· ≤ ·)) {i : Nat}
    (hi : xs.countP (fun x => decide (x ≤ q)) ≤ i) (hl : i < xs.length) :
    q < xs.getD i 0 := by
  induction xs generalizing i with
  | nil => simp at hl
  | cons x t ih =>
    have hx : t.Pairwise (· ≤ ·) := (List.pairwise_cons.mp hs).2
    by_cases hxq : x ≤ q
    · have hi' : t.countP (fun x => decide (x ≤ q)) + 1 ≤ i := by
        rw [List.countP_cons] at hi
        simp [hxq] at hi
        omega
      cases i with
      | zero => omega
      | succ j =>
        rw [List.getD_cons_succ]
        exact ih hx (by omega) (by simpa using hl)
    · have hall : ∀ a ∈ x :: t, q < a := by
        intro a ha
        rcases List.mem_cons.mp ha with h | h
        · omega
        · have := (List.pairwise_cons.mp hs).1 a h
          omega
      have : (x :: t).getD i 0 ∈ x :: t := by
        rw [List.getD_eq_getElem _ _ hl]
        exact List.getElem_mem hl
      exact hall _ this

/-- Invariant analysis of the pinned binary-search halving loop: from a
bracketing window (and a fuel covering the window size) the loop converges
onto the boundary of `countP (· ≤ q)`. -/
theorem bsLoop_spec {xs : List Nat} {q : Nat} (hs : xs.Pairwise (· ≤ ·)) :
    ∀ f size base, size ≤ f → 1 ≤ size → base + size ≤ xs.length →
      (base < xs.countP (fun x => decide (x ≤ q)) ∨ base = 0) →
      xs.countP (fun x => decide (x ≤ q)) ≤ base + size →
      ((bsLoop xs q f base size < xs.countP (fun x => decide (x ≤ q)) ∨
          bsLoop xs q f base size = 0) ∧
        xs.countP (fun x => decide (x ≤ q)) ≤ bsLoop xs q f base size + 1 ∧
        bsLoop xs q f base size < xs.length) := by
  intro f
  induction f with
  | zero => intro size base hf h1; exact absurd h1 (by omega)
  | succ f IH =>
    intro size base hf h1 hlen hA hB
    simp only [bsLoop]
    by_cases hsz : size ≤ 1
    · rw [if_pos hsz]
      exact ⟨hA, by omega, by omega⟩
    · rw [if_neg hsz]
      simp only [not_le] at hsz
      set half := size / 2 with hhalf
      set mid := base + half with hmid
      have hh1 : 1 ≤ half := by omega
      have hh2 : half < size := by omega
      by_cases hc : q < xs.getD mid 0
      · rw [if_pos hc]
        have hr : xs.countP (fun x => decide (x ≤ q)) ≤ mid := by
          by_contra hcon
          have := @sorted_getD_le_of_lt_countP xs q hs mid (by omega)
          omega
        exact IH (size - half) base (by omega) (by omega) (by omega) hA (by omega)
      · rw [if_neg hc]
        have hmlen : mid < xs.length := by omega
        have hr : mid < xs.countP (fun x => decide (x ≤ q)) := by
          by_contra hcon
          have := @sorted_lt_getD_of_countP_le xs q hs mid (by omega) hmlen
          omega
        exact IH (size - half) mid (by omega) (by omega) (by omega) (Or.inl hr)
          (by omega)

/-- On a `≤`-sorted list the crate's search-index combination computes the
number of elements `≤ q` (a rightmost-match / upper-bound search). -/
theorem searchIdx_sorted {xs : List Nat} {q : Nat}
    (hs : xs.Pairwise (· ≤ ·)) :
    searchIdx xs q = xs.countP (fun x => decide (x ≤ q)) := by
  unfold searchIdx rustBinarySearch
  by_cases h0 : xs.length = 0
  · rw [if_pos h0]
    rw [List.length_eq_zero.mp h0]
    simp
  · rw [if_neg h0]
    obtain ⟨hA, hB, hC⟩ := @bsLoop_spec xs q hs xs.length xs.length 0 (le_refl _)
      (by omega) (by omega) (Or.inr rfl)
      (by
        have : xs.countP (fun x => decide (x ≤ q)) ≤ xs.length :=
          List.countP_le_length _
        omega)
    simp only []
    set res := bsLoop xs q xs.length 0 xs.length with hres
    set r := xs.countP (fun x => decide (x ≤ q)) with hr
    by_cases hv : xs.getD res 0 = q
    · rw [if_pos hv]
      have hlt : res < r := by
        by_contra hcon
        have := @sorted_lt_getD_of_countP_le xs q hs res (by omega) hC
        omega
      simp only []
      omega
    · rw [if_neg hv]
      by_cases hv2 : xs.getD res 0 < q
      · rw [if_pos hv2]
        have hlt : res < r := by
          by_contra hcon
          have := @sorted_lt_getD_of_countP_le xs q hs res (by omega) hC
          omega
        simp only []
        omega
      · rw [if_neg hv2]
        have hge : r ≤ res := by
          by_contra hcon
          have := @sorted_getD_le_of_lt_countP xs q hs res (by omega)
          omega
        have hz : res = 0 := by
          rcases hA with h | h
          · omega
          · exact h
        have : r = 0 := by omega
        simp only []
        omega

theorem sliceEnds_length (nc : NClist) {s e : Nat} (hse : s ≤ e)
    (he : e ≤ nc.intervals.length) :
    (sliceEnds nc s e).length = e - s := by
  simp only [sliceEnds, List.length_map, List.length_take, List.length_drop]
  omega

/-- C4: on any end-sorted sub-range `intervals[s..e]`, `bin_search_end`
returns the number of elements of the sub-range whose end coordinate is at
most `q`; equivalently the boundary position after the last element with end
`≤ q` (in particular immediately after the last end equal to `q`) and before
the first element with end `> q`. -/
theorem binSearchEnd_rank (nc : NClist) (s e q : Nat)
    (hse : s ≤ e) (he : e ≤ nc.intervals.length)
    (hs : (sliceEnds nc s e).Pairwise (· ≤ ·)) :
    binSearchEnd nc s e q = (sliceEnds nc s e).countP (fun x => decide (x ≤ q)) ∧
    (∀ i, i < e - s →
      ((sliceEnds nc s e).getD i 0 ≤ q ↔ i < binSearchEnd nc s e q)) := by
  have h1 : binSearchEnd nc s e q = (sliceEnds nc s e).countP (fun x => decide (x ≤ q)) :=
    searchIdx_sorted hs
  refine ⟨h1, ?_⟩
  intro i hi
  have hlen : (sliceEnds nc s e).length = e - s := sliceEnds_length nc hse he
  rw [h1]
  constructor
  · intro hle
    by_contra hcon
    have := @sorted_lt_getD_of_countP_le (sliceEnds nc s e) q hs i (by omega) (by omega)
    omega
  · intro hlt
    exact sorted_getD_le_of_lt_countP hs hlt

/-- Witness: `binSearchEnd_rank` evaluated on a concrete sorted sub-range
with duplicated end coordinates equal to the probe. -/
theorem binSearchEnd_rank_witness :
    binSearchEnd ncW 0 4 4 = (sliceEnds ncW 0 4).countP (fun x => decide (x ≤ 4)) ∧
    (∀ i, i < 4 - 0 →
      ((sliceEnds ncW 0 4).getD i 0 ≤ 4 ↔ i < binSearchEnd ncW 0 4 4)) :=
  binSearchEnd_rank ncW 0 4 4 (by decide) (by decide) (by decide)

/-- The search behavior the crate pins by copying the standard library test
(`test_binary_search_implementation_details`): ties resolve to the last
matching element. -/
theorem rustBinarySearch_pinned :
    rustBinarySearch [1, 1, 2, 2, 3, 3, 3] 1 = .ok 1 ∧
    rustBinarySearch [1, 1, 2, 2, 3, 3, 3] 2 = .ok 3 ∧
    rustBinarySearch [1, 1, 2, 2, 3, 3, 3] 3 = .ok 6 ∧
    rustBinarySearch [1, 1, 1, 1, 1, 3, 3, 3, 3] 1 = .ok 4 ∧
    rustBinarySearch [1, 1, 1, 1, 1, 3, 3, 3, 3] 3 = .ok 8 ∧
    rustBinarySearch [1, 1, 1, 1, 3, 3, 3, 3, 3] 1 = .ok 3 ∧
    rustBinarySearch [1, 1, 1, 1, 3, 3, 3, 3, 3] 3 = .ok 8 := by
  decide

/-! ### Construction failure (C5) -/

/-- C5: constructing from a collection containing an interval with
`end <= start` fails with `InvalidInterval`, and no structure is produced
(the `Except` result carries no `NClist` in the error case). -/
theorem fromVec_invalid (v : List Iv) (x : Iv) (hx : x ∈ v)
    (hb : x.stop ≤ x.start) :
    fromVec v = .error .invalidInterval ∧ ∀ nc, ¬ fromVec v = .ok nc := by
  have h : fromVec v = .error .invalidInterval := by
    unfold fromVec
    rw [if_pos]
    exact List.any_eq_true.mpr ⟨x, hx, by simpa using hb⟩
  exact ⟨h, fun nc hc => by rw [h] at hc; cases hc⟩

/-- Witness: the crate's own `interval_width` test input, with the zero-width
interval `[7,7)`. -/
theorem fromVec_invalid_witness :
    fromVec [⟨5, 20⟩, ⟨19, 20⟩, ⟨7, 7⟩] = .error .invalidInterval ∧
    ∀ nc, ¬ fromVec [⟨5, 20⟩, ⟨19, 20⟩, ⟨7, 7⟩] = .ok nc :=
  fromVec_invalid [⟨5, 20⟩, ⟨19, 20⟩, ⟨7, 7⟩] ⟨7, 7⟩ (by decide) (by decide)

/-! ### Small `getD` helpers -/

theorem getD_append_lt {α : Type} (l t : List α) (d : α) (i : Nat)
    (h : i < l.length) : (l ++ t).getD i d = l.getD i d := by
  simp only [List.getD_eq_getElem?_getD]
  rw [List.getElem?_append_left h]

theorem getD_append_ge {α : Type} (l t : List α) (d : α) (i : Nat)
    (h : l.length ≤ i) : (l ++ t).getD i d = t.getD (i - l.length) d := by
  simp only [List.getD_eq_getElem?_getD]
  rw [List.getElem?_append_right h]

theorem getD_set_self {α : Type} (l : List α) (i : Nat) (a : α) (d : α)
    (h : i < l.length) : (l.set i a).getD i d = a := by
  simp only [List.getD_eq_getElem?_getD]
  rw [List.getElem?_set_self h]
  rfl

theorem getD_set_ne {α : Type} (l : List α) (i j : Nat) (a : α) (d : α)
    (h : i ≠ j) : (l.set i a).getD j d = l.getD j d := by
  simp only [List.getD_eq_getElem?_getD]
  rw [List.getElem?_set_ne h]

theorem getD_ge_length {α : Type} (l : List α) (d : α) (i : Nat)
    (h : l.length ≤ i) : l.getD i d = d := by
  simp only [List.getD_eq_getElem?_getD]
  rw [List.getElem?_eq_none h]
  rfl

/-! ### Facts about the group scan -/

theorem groupRuns_mem {l : List Iv} {p : Iv × List Iv} (h : p ∈ groupRuns l)
    {x : Iv} (hx : x ∈ p.1 :: p.2) : x ∈ l := by
  have h2 : x ∈ ((groupRuns l).map (fun p => p.1 :: p.2)).flatten :=
    List.mem_flatten.mpr ⟨p.1 :: p.2, List.mem_map_of_mem _ h, hx⟩
  rwa [groupRuns_flatten] at h2

theorem groupRuns_run_stop_aux : ∀ (n : Nat) (l : List Iv), l.length ≤ n →
    ∀ p ∈ groupRuns l, ∀ x ∈ p.2, x.stop < p.1.stop := by
  intro n
  induction n with
  | zero =>
    intro l hl
    rw [List.length_eq_zero.mp (by omega : l.length = 0)]
    intro p hp
    simp [groupRuns, groupRunsF] at hp
  | succ n IH =>
    intro l hl p hp x hx
    match l with
    | [] => simp [groupRuns, groupRunsF] at hp
    | e :: rest =>
      have hdrop : (rest.dropWhile (fun n => decide (n.stop < e.stop))).length
          ≤ rest.length := (List.dropWhile_sublist _).length_le
      simp only [List.length_cons] at hl
      rw [groupRuns_cons] at hp
      rcases List.mem_cons.mp hp with h | h
      · subst h
        have := List.mem_takeWhile_imp hx
        simpa using this
      · exact IH _ (by omega) p h x hx

/-- Elements of a contained run end strictly before their owner's end. -/
theorem groupRuns_run_stop {l : List Iv} {p : Iv × List Iv}
    (h : p ∈ groupRuns l) {x : Iv} (hx : x ∈ p.2) : x.stop < p.1.stop :=
  groupRuns_run_stop_aux l.length l (le_refl _) p h x hx

theorem groupRuns_run_sublist_aux : ∀ (n : Nat) (l : List Iv), l.length ≤ n →
    ∀ p ∈ groupRuns l, p.2.Sublist l := by
  intro n
  induction n with
  | zero =>
    intro l hl
    rw [List.length_eq_zero.mp (by omega : l.length = 0)]
    intro p hp
    simp [groupRuns, groupRunsF] at hp
  | succ n IH =>
    intro l hl p hp
    match l with
    | [] => simp [groupRuns, groupRunsF] at hp
    | e :: rest =>
      have hdrop : (rest.dropWhile (fun n => decide (n.stop < e.stop))).length
          ≤ rest.length := (List.dropWhile_sublist _).length_le
      simp only [List.length_cons] at hl
      rw [groupRuns_cons] at hp
      rcases List.mem_cons.mp hp with h | h
      · subst h
        exact ((List.takeWhile_sublist _).trans (List.sublist_cons_self _ _))
      · exact ((IH _ (by omega) p h).trans
          ((List.dropWhile_sublist _).trans (List.sublist_cons_self _ _)))

/-- Each contained run is a sublist of the group. -/
theorem groupRuns_run_sublist {l : List Iv} {p : Iv × List Iv}
    (h : p ∈ groupRuns l) : p.2.Sublist l :=
  groupRuns_run_sublist_aux l.length l (le_refl _) p h

/-- Reflexivity of the sort relation. -/
theorem sortRel_refl (a : Iv) : sortRel a a := by
  simp [sortRel, sortLe]

theorem groupRuns_owners_aux : ∀ (n : Nat) (l : List Iv), l.length ≤ n →
    l.Pairwise sortRel →
    ((groupRuns l).map Prod.fst).Pairwise
      (fun a b => sortRel a b ∧ a.stop ≤ b.stop) ∧
    (∀ e rest, l = e :: rest → ∀ o ∈ (groupRuns l).map Prod.fst,
      sortRel e o ∧ e.stop ≤ o.stop) := by
  intro n
  induction n with
  | zero =>
    intro l hl _
    rw [List.length_eq_zero.mp (by omega : l.length = 0)]
    constructor
    · simp [groupRuns, groupRunsF]
    · intro e rest he
      cases he
  | succ n IH =>
    intro l hl hsorted
    match l with
    | [] =>
      constructor
      · simp [groupRuns, groupRunsF]
      · intro e rest he; cases he
    | e :: rest =>
      have hdrop : (rest.dropWhile (fun n => decide (n.stop < e.stop))).length
          ≤ rest.length := (List.dropWhile_sublist _).length_le
      have hdropsub : (rest.dropWhile (fun n => decide (n.stop < e.stop))).Sublist rest :=
        List.dropWhile_sublist _
      simp only [List.length_cons] at hl
      obtain ⟨hhead, htail⟩ := List.pairwise_cons.mp hsorted
      have hrec := IH (rest.dropWhile (fun n => decide (n.stop < e.stop)))
        (by omega) (htail.sublist hdropsub)
      -- every owner of the dropped tail is bounded below by the head of the
      -- dropped tail, whose end is at least `e`'s end
      have hkey : ∀ o ∈ ((groupRuns (rest.dropWhile
          (fun n => decide (n.stop < e.stop)))).map Prod.fst),
          sortRel e o ∧ e.stop ≤ o.stop := by
        intro o ho
        obtain ⟨po, hpo, hpo2⟩ := List.mem_map.mp ho
        have homem : o ∈ rest.dropWhile (fun n => decide (n.stop < e.stop)) := by
          exact groupRuns_mem hpo (by rw [hpo2]; exact List.mem_cons_self _ _)
        have hrel : sortRel e o := hhead o (hdropsub.mem homem)
        match hd : rest.dropWhile (fun n => decide (n.stop < e.stop)) with
        | [] => rw [hd] at homem; cases homem
        | d0 :: ds =>
          have hsome : (rest.dropWhile (fun n => decide (n.stop < e.stop))).head?
              = some d0 := by rw [hd]; rfl
          have h2 := List.head?_dropWhile_not (fun n => decide (n.stop < e.stop)) rest
          rw [hsome] at h2
          have hd0 : ¬ d0.stop < e.stop := by simpa using h2
          rcases hrec.2 d0 ds hd o ho with ⟨hrel2, hstop2⟩
          exact ⟨hrel, by omega⟩
      constructor
      · rw [groupRuns_cons]
        simp only [List.map_cons]
        rw [List.pairwise_cons]
        exact ⟨hkey, hrec.1⟩
      · intro e' rest' he' o ho
        cases he'
        rw [groupRuns_cons] at ho
        simp only [List.map_cons] at ho
        rcases List.mem_cons.mp ho with h | h
        · subst h
          exact ⟨sortRel_refl _, le_refl _⟩
        · exact hkey o h

/-- The owners of a comparator-sorted group are sorted by both start and end
coordinate. -/
theorem groupRuns_owners {l : List Iv} (hs : l.Pairwise sortRel) :
    ((groupRuns l).map Prod.fst).Pairwise
      (fun a b => sortRel a b ∧ a.stop ≤ b.stop) :=
  (groupRuns_owners_aux l.length l (le_refl _) hs).1

/-- Elements of a contained run are `sortRel`-above their owner (the group is
scanned in sorted order). -/
theorem groupRuns_run_rel_aux : ∀ (n : Nat) (l : List Iv), l.length ≤ n →
    l.Pairwise sortRel → ∀ p ∈ groupRuns l, ∀ x ∈ p.2, sortRel p.1 x := by
  intro n
  induction n with
  | zero =>
    intro l hl _
    rw [List.length_eq_zero.mp (by omega : l.length = 0)]
    intro p hp
    simp [groupRuns, groupRunsF] at hp
  | succ n IH =>
    intro l hl hsorted p hp x hx
    match l with
    | [] => simp [groupRuns, groupRunsF] at hp
    | e :: rest =>
      have hdrop : (rest.dropWhile (fun n => decide (n.stop < e.stop))).length
          ≤ rest.length := (List.dropWhile_sublist _).length_le
      simp only [List.length_cons] at hl
      obtain ⟨hhead, htail⟩ := List.pairwise_cons.mp hsorted
      rw [groupRuns_cons] at hp
      rcases List.mem_cons.mp hp with h | h
      · subst h
        exact hhead x ((List.takeWhile_sublist _).mem hx)
      · exact IH _ (by omega) (htail.sublist (List.dropWhile_sublist _)) p h x hx

theorem groupRuns_run_rel {l : List Iv} (hs : l.Pairwise sortRel)
    {p : Iv × List Iv} (h : p ∈ groupRuns l) {x : Iv} (hx : x ∈ p.2) :
    sortRel p.1 x :=
  groupRuns_run_rel_aux l.length l (le_refl _) hs p h x hx

/-! ### Characterization of one construction step -/

theorem buildStep_fst_intervals (res : NClist) (b : NClistBuilder) :
    (buildStep res b).1.intervals
      = res.intervals ++ (groupRuns b.intervals).map Prod.fst := rfl

theorem buildStep_fst_contained (res : NClist) (b : NClistBuilder) :
    (buildStep res b).1.contained
      = (res.contained
          ++ ((groupRuns b.intervals).map Prod.fst).map (fun _ => none)).set
          b.contained_pos
          (some (res.intervals.length,
            res.intervals.length + ((groupRuns b.intervals).map Prod.fst).length)) := rfl

theorem buildStep_snd_eq (res : NClist) (b : NClistBuilder) :
    (buildStep res b).2
      = (groupRuns b.intervals).enum.filterMap (fun p =>
          if p.2.2.isEmpty then none
          else some ⟨p.2.2, res.intervals.length + p.1 + 1⟩) := rfl

theorem buildStep_clen (res : NClist) (b : NClistBuilder) :
    (buildStep res b).1.contained.length
      = res.contained.length + (groupRuns b.intervals).length := by
  rw [buildStep_fst_contained]
  simp

theorem buildStep_ilen (res : NClist) (b : NClistBuilder) :
    (buildStep res b).1.intervals.length
      = res.intervals.length + (groupRuns b.intervals).length := by
  rw [buildStep_fst_intervals]
  simp

theorem getD_eq_getElem {α : Type} (l : List α) (d : α) {i : Nat}
    (h : i < l.length) : l.getD i d = l[i] := by
  simp only [List.getD_eq_getElem?_getD]
  rw [List.getElem?_eq_getElem h]
  rfl

/-- Elements below the old length are unchanged by a construction step. -/
theorem buildStep_getIv_old (res : NClist) (b : NClistBuilder) {i : Nat}
    (h : i < res.intervals.length) :
    getIv (buildStep res b).1 i = getIv res i := by
  unfold getIv
  rw [buildStep_fst_intervals]
  exact getD_append_lt _ _ _ _ h

/-- The appended region of a construction step holds the group's owners. -/
theorem buildStep_getIv_new (res : NClist) (b : NClistBuilder) (i : Nat) :
    getIv (buildStep res b).1 (res.intervals.length + i)
      = ((groupRuns b.intervals).map Prod.fst).getD i ⟨0, 0⟩ := by
  unfold getIv
  rw [buildStep_fst_intervals, getD_append_ge _ _ _ _ (by omega)]
  congr 1
  omega

/-- Complete characterization of the link array after one construction step:
the builder's slot holds the new range, older slots are unchanged, and all
newly appended slots (and everything out of bounds) are `none`. -/
theorem buildStep_contained_getD (res : NClist) (b : NClistBuilder)
    (hb : b.contained_pos < res.contained.length) (p : Nat) :
    (buildStep res b).1.contained.getD p none
      = if p = b.contained_pos then
          some (res.intervals.length,
            res.intervals.length + (groupRuns b.intervals).length)
        else if p < res.contained.length then res.contained.getD p none
        else none := by
  rw [buildStep_fst_contained]
  by_cases hp : p = b.contained_pos
  · subst hp
    rw [if_pos rfl, getD_set_self _ _ _ _ (by simp; omega)]
    simp
  · rw [if_neg hp, getD_set_ne _ _ _ _ _ (fun h => hp h.symm)]
    by_cases hlt : p < res.contained.length
    · rw [if_pos hlt]
      exact getD_append_lt _ _ _ _ hlt
    · rw [if_neg hlt]
      by_cases hlt2 : p < res.contained.length + (groupRuns b.intervals).length
      · rw [getD_append_ge _ _ _ _ (by omega)]
        have : p - res.contained.length < ((groupRuns b.intervals).map Prod.fst).length := by
          simp
          omega
        rw [getD_eq_getElem _ _ (by simpa using this)]
        simp
      · exact getD_ge_length _ _ _ (by simp; omega)

/-- Membership characterization of the builders queued by a construction
step. -/
theorem enumFrom_filterMap_mem :
    ∀ (rs : List (Iv × List Iv)) (k base : Nat) (nb : NClistBuilder),
    nb ∈ (rs.enumFrom k).filterMap (fun p =>
      if p.2.2.isEmpty then none else some ⟨p.2.2, base + p.1 + 1⟩) →
    ∃ i o run, rs[i]? = some (o, run) ∧ run ≠ [] ∧
      nb = ⟨run, base + (k + i) + 1⟩ := by
  intro rs
  induction rs with
  | nil => intro k base nb h; simp at h
  | cons hd tl IH =>
    intro k base nb h
    simp only [List.enumFrom, List.filterMap_cons] at h
    by_cases he : hd.2.isEmpty
    · rw [if_pos he] at h
      obtain ⟨i, o, run, h1, h2, h3⟩ := IH (k + 1) base nb h
      exact ⟨i + 1, o, run, by simpa using h1, h2, by rw [h3]; congr 1; omega⟩
    · rw [if_neg he] at h
      rcases List.mem_cons.mp h with h | h
      · refine ⟨0, hd.1, hd.2, by simp, ?_, by rw [h]; simp⟩
        intro hrun
        rw [hrun] at he
        exact he rfl
      · obtain ⟨i, o, run, h1, h2, h3⟩ := IH (k + 1) base nb h
        exact ⟨i + 1, o, run, by simpa using h1, h2, by rw [h3]; congr 1; omega⟩

/-- The queued builders' slots are strictly increasing, hence distinct. -/
theorem enumFrom_filterMap_pos_lt :
    ∀ (rs : List (Iv × List Iv)) (k base : Nat),
    ((rs.enumFrom k).filterMap (fun p =>
      if p.2.2.isEmpty then none
      else some (NClistBuilder.mk p.2.2 (base + p.1 + 1)))).Pairwise
      (fun a b => a.contained_pos < b.contained_pos) := by
  intro rs
  induction rs with
  | nil => intro k base; simp
  | cons hd tl IH =>
    intro k base
    simp only [List.enumFrom, List.filterMap_cons]
    by_cases he : hd.2.isEmpty
    · rw [if_pos he]
      exact IH (k + 1) base
    · rw [if_neg he]
      rw [List.pairwise_cons]
      refine ⟨?_, IH (k + 1) base⟩
      intro nb hnb
      obtain ⟨i, o, run, h1, h2, h3⟩ := enumFrom_filterMap_mem tl (k + 1) base nb hnb
      rw [h3]
      simp only []
      omega

theorem sortRel_start_le {a b : Iv} (h : sortRel a b) : a.start ≤ b.start := by
  simp only [sortRel, sortLe, Bool.or_eq_true, Bool.and_eq_true,
    decide_eq_true_eq] at h
  omega

/-! ### Preservation of the construction invariant -/

theorem buildStep_inv {res : NClist} {b : NClistBuilder} {bs : List NClistBuilder}
    (hInv : Inv res (b :: bs)) :
    Inv (buildStep res b).1 (bs ++ (buildStep res b).2) := by
  obtain ⟨hWF, hB, hNd⟩ := hInv
  obtain ⟨hbpos, hbslot, hbsorted, hbnest⟩ := hB b (List.mem_cons_self _ _)
  have hNc : res.contained.length = res.intervals.length + 1 := hWF.clen
  have hclen' := buildStep_clen res b
  have hilen' := buildStep_ilen res b
  have hCont := buildStep_contained_getD res b hbpos
  have hosl : ((groupRuns b.intervals).map Prod.fst).length
      = (groupRuns b.intervals).length := by simp
  have hos := groupRuns_owners hbsorted
  -- membership characterization of the new builders
  have hnb : ∀ nb ∈ (buildStep res b).2, ∃ i o run,
      (groupRuns b.intervals)[i]? = some (o, run) ∧ run ≠ [] ∧
      nb = ⟨run, res.intervals.length + i + 1⟩ := by
    intro nb h
    rw [buildStep_snd_eq] at h
    obtain ⟨i, o, run, h1, h2, h3⟩ :=
      enumFrom_filterMap_mem (groupRuns b.intervals) 0 res.intervals.length nb
        (by simpa [List.enum] using h)
    exact ⟨i, o, run, h1, h2, by simpa using h3⟩
  refine ⟨⟨?_, ?_, ?_, ?_, ?_, ?_⟩, ?_, ?_⟩
  · -- clen
    omega
  · -- root
    have hse : ∃ se, (buildStep res b).1.contained.getD 0 none = some se := by
      rw [hCont 0]
      by_cases h0 : (0 : Nat) = b.contained_pos
      · rw [if_pos h0]; exact ⟨_, rfl⟩
      · rw [if_neg h0, if_pos (by omega)]
        exact ⟨rootLink res, hWF.root⟩
    obtain ⟨se, hse⟩ := hse
    simp only [rootLink, hse, Option.getD_some]
  · -- bounds
    intro p s e hp
    rw [hCont p] at hp
    by_cases hpb : p = b.contained_pos
    · rw [if_pos hpb] at hp
      injection hp with hp
      injection hp with hp1 hp2
      omega
    · rw [if_neg hpb] at hp
      by_cases plt : p < res.contained.length
      · rw [if_pos plt] at hp
        have := hWF.bounds p s e hp
        omega
      · rw [if_neg plt] at hp
        cases hp
  · -- ownerlt
    intro p s e hp
    simp only [childLink] at hp
    rw [hCont (p + 1)] at hp
    by_cases hpb : p + 1 = b.contained_pos
    · rw [if_pos hpb] at hp
      injection hp with hp
      injection hp with hp1 hp2
      omega
    · rw [if_neg hpb] at hp
      by_cases plt : p + 1 < res.contained.length
      · rw [if_pos plt] at hp
        exact hWF.ownerlt p s e hp
      · rw [if_neg plt] at hp
        cases hp
  · -- sorted
    intro p s e hp i j hi hij hj
    rw [hCont p] at hp
    by_cases hpb : p = b.contained_pos
    · rw [if_pos hpb] at hp
      injection hp with hp
      injection hp with hp1 hp2
      subst hp1
      subst hp2
      have hjm : j - res.intervals.length < (groupRuns b.intervals).length := by omega
      have him : i - res.intervals.length < (groupRuns b.intervals).length := by omega
      have hgi : getIv (buildStep res b).1 i
          = ((groupRuns b.intervals).map Prod.fst).getD (i - res.intervals.length) ⟨0, 0⟩ := by
        have := buildStep_getIv_new res b (i - res.intervals.length)
        rwa [show res.intervals.length + (i - res.intervals.length) = i by omega] at this
      have hgj : getIv (buildStep res b).1 j
          = ((groupRuns b.intervals).map Prod.fst).getD (j - res.intervals.length) ⟨0, 0⟩ := by
        have := buildStep_getIv_new res b (j - res.intervals.length)
        rwa [show res.intervals.length + (j - res.intervals.length) = j by omega] at this
      rw [hgi, hgj, getD_eq_getElem _ _ (by omega), getD_eq_getElem _ _ (by omega)]
      by_cases hij' : i = j
      · subst hij'
        exact ⟨le_refl _, le_refl _⟩
      · have := List.pairwise_iff_getElem.mp hos (i - res.intervals.length)
          (j - res.intervals.length) (by omega) (by omega) (by omega)
        exact ⟨sortRel_start_le this.1, this.2⟩
    · rw [if_neg hpb] at hp
      by_cases plt : p < res.contained.length
      · rw [if_pos plt] at hp
        have hbnd := hWF.bounds p s e hp
        rw [buildStep_getIv_old res b (by omega), buildStep_getIv_old res b (by omega)]
        exact hWF.sorted p s e hp i j hi hij hj
      · rw [if_neg plt] at hp
        cases hp
  · -- nested
    intro p s e hp j hjs hje
    simp only [childLink] at hp
    rw [hCont (p + 1)] at hp
    by_cases hpb : p + 1 = b.contained_pos
    · rw [if_pos hpb] at hp
      injection hp with hp
      injection hp with hp1 hp2
      subst hp1
      subst hp2
      have hp1 : 1 ≤ b.contained_pos := by omega
      have hpN : p < res.intervals.length := by omega
      have hjm : j - res.intervals.length < (groupRuns b.intervals).length := by omega
      have hgj : getIv (buildStep res b).1 j
          = ((groupRuns b.intervals).map Prod.fst).getD (j - res.intervals.length) ⟨0, 0⟩ := by
        have := buildStep_getIv_new res b (j - res.intervals.length)
        rwa [show res.intervals.length + (j - res.intervals.length) = j by omega] at this
      have hmem : ((groupRuns b.intervals).map Prod.fst).getD
          (j - res.intervals.length) ⟨0, 0⟩ ∈ b.intervals := by
        rw [getD_eq_getElem _ _ (by omega)]
        have h1 : ((groupRuns b.intervals).map Prod.fst)[j - res.intervals.length]
            ∈ (groupRuns b.intervals).map Prod.fst := List.getElem_mem _
        obtain ⟨q, hq, hq2⟩ := List.mem_map.mp h1
        rw [← hq2]
        exact groupRuns_mem hq (List.mem_cons_self _ _)
      have := hbnest hp1 _ hmem
      rw [buildStep_getIv_old res b hpN, hgj]
      have hpe : b.contained_pos - 1 = p := by omega
      rw [hpe] at this
      exact this
    · rw [if_neg hpb] at hp
      by_cases plt : p + 1 < res.contained.length
      · rw [if_pos plt] at hp
        have hbnd := hWF.bounds (p + 1) s e hp
        have hps : p < s := hWF.ownerlt p s e hp
        rw [buildStep_getIv_old res b (by omega), buildStep_getIv_old res b (by omega)]
        exact hWF.nested p s e hp j hjs hje
      · rw [if_neg plt] at hp
        cases hp
  · -- BInv for every remaining builder
    intro b' hb'
    rcases List.mem_append.mp hb' with h | h
    · obtain ⟨h1, h2, h3, h4⟩ := hB b' (List.mem_cons_of_mem _ h)
      have hne : b'.contained_pos ≠ b.contained_pos := by
        have hNd' := hNd
        rw [List.map_cons] at hNd'
        have hni := (List.pairwise_cons.mp hNd').1
        intro he
        exact hni b'.contained_pos (List.mem_map_of_mem _ h) he.symm
      refine ⟨by omega, ?_, h3, ?_⟩
      · rw [hCont b'.contained_pos, if_neg hne, if_pos h1]
        exact h2
      · intro hge x hx
        rw [buildStep_getIv_old res b (by omega)]
        exact h4 hge x hx
    · obtain ⟨i, o, run, h1, h2, h3⟩ := hnb b' h
      have hi : i < (groupRuns b.intervals).length := by
        by_contra hcon
        rw [List.getElem?_eq_none (by omega)] at h1
        cases h1
      have hmem : (o, run) ∈ groupRuns b.intervals := List.getElem?_mem h1
      have hruns_i : (groupRuns b.intervals)[i] = (o, run) := by
        have h5 : (groupRuns b.intervals)[i]? = some ((groupRuns b.intervals)[i]) :=
          List.getElem?_eq_getElem hi
        rw [h1] at h5
        injection h5 with h5
        exact h5.symm
      subst h3
      refine ⟨by simp only []; omega, ?_, ?_, ?_⟩
      · rw [hCont]
        simp only []
        rw [if_neg (by omega), if_neg (by omega)]
        exact Or.inl rfl
      · exact hbsorted.sublist (groupRuns_run_sublist hmem)
      · intro _ x hx
        simp only []
        rw [show res.intervals.length + i + 1 - 1 = res.intervals.length + i by omega]
        have howner : getIv (buildStep res b).1 (res.intervals.length + i) = o := by
          rw [buildStep_getIv_new res b i, getD_eq_getElem _ _ (by omega),
            List.getElem_map, hruns_i]
        rw [howner]
        exact ⟨sortRel_start_le (groupRuns_run_rel hbsorted hmem hx),
          groupRuns_run_stop hmem hx⟩
  · -- distinct pending slots
    rw [List.map_append, List.nodup_append]
    refine ⟨?_, ?_, ?_⟩
    · have := hNd
      rw [List.map_cons] at this
      exact this.of_cons
    · have hlt := enumFrom_filterMap_pos_lt (groupRuns b.intervals) 0 res.intervals.length
      have : ((buildStep res b).2.map (fun b => b.contained_pos)).Pairwise (· < ·) := by
        rw [buildStep_snd_eq]
        rw [List.pairwise_map]
        simpa [List.enum] using hlt
      exact this.imp Nat.ne_of_lt
    · intro x hx hx2
      obtain ⟨bx, hbx, hbx2⟩ := List.mem_map.mp hx
      obtain ⟨by', hby, hby2⟩ := List.mem_map.mp hx2
      obtain ⟨h1, _, _, _⟩ := hB bx (List.mem_cons_of_mem _ hbx)
      obtain ⟨i, o, run, hg1, hg2, hg3⟩ := hnb by' hby
      rw [hg3] at hby2
      simp only [] at hby2
      omega

theorem buildAll_nil (res : NClist) : buildAll [] res = res := rfl

theorem buildAll_inv : ∀ (n : Nat) (qs : List NClistBuilder) (res : NClist),
    (qs.map bSize).sum ≤ n → Inv res qs → WF (buildAll qs res) := by
  intro n
  induction n with
  | zero =>
    intro qs res hm hInv
    match qs with
    | [] => exact hInv.1
    | b :: bs =>
      exfalso
      have : ((b :: bs).map bSize).sum = bSize b + (bs.map bSize).sum := by simp
      have : 1 ≤ bSize b := by simp [bSize]
      omega
  | succ n IH =>
    intro qs res hm hInv
    match qs with
    | [] => exact hInv.1
    | b :: bs =>
      rw [buildAll_cons]
      have hsum : ((bs ++ (buildStep res b).2).map bSize).sum
          = (bs.map bSize).sum + (((buildStep res b).2).map bSize).sum := by simp
      have hm' := buildStep_measure res b
      have hcons : ((b :: bs).map bSize).sum = bSize b + (bs.map bSize).sum := by simp
      exact IH _ _ (by omega) (buildStep_inv hInv)

/-- The construction loop preserves and delivers well-formedness. -/
theorem buildAll_WF {qs : List NClistBuilder} {res : NClist} (h : Inv res qs) :
    WF (buildAll qs res) :=
  buildAll_inv ((qs.map bSize).sum) qs res (le_refl _) h

/-- The empty structure seeded by `NClist::new` is well-formed. -/
theorem WF_new : WF NClist.new := by
  refine ⟨rfl, rfl, ?_, ?_, ?_, ?_⟩
  · intro p s e hp
    match p with
    | 0 =>
      injection hp with hp
      injection hp with h1 h2
      simp [NClist.new]
      omega
    | p + 1 => cases hp
  · intro p s e hp
    match p with
    | 0 => cases hp
    | p + 1 => cases hp
  · intro p s e hp i j hi hij hj
    match p with
    | 0 =>
      injection hp with hp
      injection hp with h1 h2
      omega
    | p + 1 => cases hp
  · intro p s e hp
    match p with
    | 0 => cases hp
    | p + 1 => cases hp

/-- The initial queue of `From<Vec<T>>` satisfies the loop invariant. -/
theorem Inv_init (v : List Iv) :
    Inv NClist.new [⟨v.insertionSort sortRel, 0⟩] := by
  refine ⟨WF_new, ?_, by simp⟩
  intro b hb
  rcases List.mem_cons.mp hb with h | h
  · subst h
    refine ⟨by simp [NClist.new], Or.inr ⟨0, rfl⟩, ?_, ?_⟩
    · exact List.sorted_insertionSort sortRel v
    · intro h1
      simp at h1
  · cases h

/-- Every successfully built structure is well-formed. -/
theorem fromVec_WF {v : List Iv} {nc : NClist} (h : fromVec v = .ok nc) :
    WF nc := by
  unfold fromVec at h
  by_cases hv : v.any (fun e => decide (e.stop ≤ e.start))
  · rw [if_pos hv] at h
    cases h
  · rw [if_neg hv] at h
    injection h with h
    rw [← h]
    exact buildAll_WF (Inv_init v)

/-! ### The element multiset is preserved by construction -/

theorem owners_runs_perm : ∀ rs : List (Iv × List Iv),
    ((rs.map Prod.fst) ++ ((rs.map Prod.snd).flatten)).Perm
      ((rs.map (fun p => p.1 :: p.2)).flatten) := by
  intro rs
  induction rs with
  | nil => simp
  | cons hd tl IH =>
    simp only [List.map_cons, List.flatten_cons, List.cons_append]
    refine List.Perm.cons hd.1 ?_
    have h1 : tl.map Prod.fst ++ (hd.2 ++ ((tl.map Prod.snd).flatten))
        = (tl.map Prod.fst ++ hd.2) ++ (tl.map Prod.snd).flatten := by
      rw [List.append_assoc]
    rw [h1]
    refine ((List.perm_append_comm).append_right _).trans ?_
    rw [List.append_assoc]
    exact IH.append_left _

theorem enumFrom_filterMap_flatten :
    ∀ (rs : List (Iv × List Iv)) (k base : Nat),
    (((rs.enumFrom k).filterMap (fun p =>
        if p.2.2.isEmpty then none
        else some (NClistBuilder.mk p.2.2 (base + p.1 + 1)))).map
      (fun nb => nb.intervals)).flatten
      = (rs.map Prod.snd).flatten := by
  intro rs
  induction rs with
  | nil => intro k base; rfl
  | cons hd tl IH =>
    intro k base
    simp only [List.enumFrom, List.filterMap_cons, List.map_cons, List.flatten_cons]
    by_cases he : hd.2.isEmpty
    · rw [if_pos he]
      rw [List.isEmpty_iff.mp he]
      simpa using IH (k + 1) base
    · rw [if_neg he]
      simp only [List.map_cons, List.flatten_cons]
      rw [IH (k + 1) base]

/-- One construction step preserves the combined element multiset of the
structure and the queue. -/
theorem buildStep_perm (res : NClist) (b : NClistBuilder) :
    ((buildStep res b).1.intervals
      ++ (((buildStep res b).2.map (fun nb => nb.intervals)).flatten)).Perm
      (res.intervals ++ b.intervals) := by
  rw [buildStep_fst_intervals]
  have h1 : (((buildStep res b).2.map (fun nb => nb.intervals)).flatten)
      = ((groupRuns b.intervals).map Prod.snd).flatten := by
    rw [buildStep_snd_eq]
    simpa [List.enum] using
      enumFrom_filterMap_flatten (groupRuns b.intervals) 0 res.intervals.length
  rw [h1, List.append_assoc]
  refine List.Perm.append_left _ ?_
  have := owners_runs_perm (groupRuns b.intervals)
  rw [groupRuns_flatten] at this
  exact this

theorem buildAll_perm : ∀ (n : Nat) (qs : List NClistBuilder) (res : NClist),
    (qs.map bSize).sum ≤ n →
    ((buildAll qs res).intervals).Perm
      (res.intervals ++ ((qs.map (fun b => b.intervals)).flatten)) := by
  intro n
  induction n with
  | zero =>
    intro qs res hm
    match qs with
    | [] => simp [buildAll_nil]
    | b :: bs =>
      exfalso
      have : ((b :: bs).map bSize).sum = bSize b + (bs.map bSize).sum := by simp
      have : 1 ≤ bSize b := by simp [bSize]
      omega
  | succ n IH =>
    intro qs res hm
    match qs with
    | [] => simp [buildAll_nil]
    | b :: bs =>
      rw [buildAll_cons]
      have hsum : ((bs ++ (buildStep res b).2).map bSize).sum
          = (bs.map bSize).sum + (((buildStep res b).2).map bSize).sum := by simp
      have hm' := buildStep_measure res b
      have hcons : ((b :: bs).map bSize).sum = bSize b + (bs.map bSize).sum := by simp
      have h1 := IH (bs ++ (buildStep res b).2) (buildStep res b).1 (by omega)
      refine h1.trans ?_
      simp only [List.map_append, List.flatten_append, List.map_cons,
        List.flatten_cons]
      refine ((@List.perm_append_comm _ ((bs.map (fun b => b.intervals)).flatten)
        (((buildStep res b).2.map (fun b => b.intervals)).flatten)).append_left
          (buildStep res b).1.intervals).trans ?_
      rw [← List.append_assoc]
      rw [show res.intervals ++ (b.intervals ++ (bs.map (fun b => b.intervals)).flatten)
          = (res.intervals ++ b.intervals) ++ (bs.map (fun b => b.intervals)).flatten by
        rw [List.append_assoc]]
      exact (buildStep_perm res b).append_right _

/-- A successfully built structure holds exactly the input multiset. -/
theorem fromVec_perm {v : List Iv} {nc : NClist} (h : fromVec v = .ok nc) :
    (nc.intervals).Perm v := by
  unfold fromVec at h
  by_cases hv : v.any (fun e => decide (e.stop ≤ e.start))
  · rw [if_pos hv] at h
    cases h
  · rw [if_neg hv] at h
    injection h with h
    rw [← h]
    have h1 := buildAll_perm _ [⟨v.insertionSort sortRel, 0⟩] NClist.new (le_refl _)
    refine h1.trans ?_
    simpa [NClist.new] using List.perm_insertionSort sortRel v

/-- C6: for every valid input collection (all elements satisfy `end > start`)
construction succeeds, and converting the resulting structure back into a
plain collection (`into_vec` / `Into<Vec<T>>`) yields the same multiset of
elements as the input (possibly in a different order). -/
theorem fromVec_intoVec_perm (v : List Iv) (hv : ∀ x ∈ v, x.start < x.stop) :
    ∃ nc, fromVec v = .ok nc ∧ (intoVec nc).Perm v := by
  have hany : v.any (fun e => decide (e.stop ≤ e.start)) = false := by
    rw [List.any_eq_false]
    intro x hx
    have := hv x hx
    simp only [decide_eq_true_eq]
    omega
  refine ⟨buildAll [⟨v.insertionSort sortRel, 0⟩] NClist.new, ?_, ?_⟩
  · unfold fromVec
    rw [if_neg (by rw [hany]; simp)]
  · exact fromVec_perm (by unfold fromVec; rw [if_neg (by rw [hany]; simp)])

/-- Witness for C6 at the crate's `duplicate_intervals` input. -/
theorem fromVec_intoVec_perm_witness :
    ∃ nc, fromVec vEx = .ok nc ∧ (intoVec nc).Perm vEx :=
  fromVec_intoVec_perm vEx (by decide)

/-- C10: after construction the containment-link sequence has exactly `N + 1`
entries, link `0` is present, and every present link `(s, e)` satisfies
`s ≤ e ≤ N`.  These bounds are exactly what makes the `unwrap` of link `0`
performed by `count_overlaps`/`overlaps`/`overlaps_ordered` and the slice
indexing `intervals[start..end]`, `contained[start+1..end+1]` performed by
`NClist::slice` and the iterators stay in bounds. -/
theorem fromVec_safety (v : List Iv) (nc : NClist) (h : fromVec v = .ok nc) :
    nc.contained.length = nc.intervals.length + 1 ∧
    nc.contained.getD 0 none = some (rootLink nc) ∧
    (∀ p s e, nc.contained.getD p none = some (s, e) →
      s ≤ e ∧ e ≤ nc.intervals.length) := by
  have hWF := fromVec_WF h
  exact ⟨hWF.clen, hWF.root, hWF.bounds⟩

/-- Witness for C10. -/
theorem fromVec_safety_witness :
    ncEx.contained.length = ncEx.intervals.length + 1 ∧
    ncEx.contained.getD 0 none = some (rootLink ncEx) ∧
    (∀ p s e, ncEx.contained.getD p none = some (s, e) →
      s ≤ e ∧ e ≤ ncEx.intervals.length) :=
  fromVec_safety vEx ncEx (by decide)

/-- C8: in every built structure, the elements of every contiguous slice
addressed by a containment link (the synthetic root link included) have
non-decreasing start coordinates and non-decreasing end coordinates — the
ordering invariant that validates binary search over end coordinates within a
slice. -/
theorem fromVec_sliceSorted (v : List Iv) (nc : NClist) (h : fromVec v = .ok nc) :
    ∀ p s e, nc.contained.getD p none = some (s, e) →
      ∀ i j, s ≤ i → i ≤ j → j < e →
        (getIv nc i).start ≤ (getIv nc j).start ∧
        (getIv nc i).stop ≤ (getIv nc j).stop :=
  (fromVec_WF h).sorted

/-- Witness for C8: the ordering invariant instantiated at the nested slice
`[2, 4)` of `ncEx` (the containment link stored at slot `2`). -/
theorem fromVec_sliceSorted_witness :
    (getIv ncEx 2).start ≤ (getIv ncEx 3).start ∧
    (getIv ncEx 2).stop ≤ (getIv ncEx 3).stop :=
  fromVec_sliceSorted vEx ncEx (by decide) 2 2 4 (by decide) 2 3 (by decide)
    (by decide) (by decide)

/-! ### Inverted and empty queries (C7) -/

theorem runOverlaps_empty_state (nc : NClist) (r : Iv) (e : Nat)
    (q : List (Nat × Nat)) (hq : q = []) :
    ∀ f out, runOverlaps nc r f ⟨e, e, q⟩ = some out → out = [] := by
  intro f out h
  match f with
  | 0 => cases h
  | f + 1 =>
    subst hq
    simp only [runOverlaps, overlapsNext, overlapsNextAux] at h
    rw [if_pos (Or.inl (by omega))] at h
    injection h with h
    exact h.symm

/-- C7: on a query with `end <= start`, all three operations are defined and
report zero or empty, whatever the built structure holds: `count_overlaps`
returns `0`, and both iterators are immediately exhausted. -/
theorem inverted_query_empty (v : List Iv) (nc : NClist) (r : Iv)
    (_h : fromVec v = .ok nc) (hr : r.stop ≤ r.start) :
    (CRun nc r 0 ∧ ∀ c, CRun nc r c → c = 0) ∧
    (ORun nc r [] ∧ ∀ out, ORun nc r out → out = []) ∧
    (DRun nc r [] ∧ ∀ out, DRun nc r out → out = []) := by
  refine ⟨⟨⟨0, ?_⟩, ?_⟩, ⟨⟨1, ?_⟩, ?_⟩, ⟨⟨1, ?_⟩, ?_⟩⟩
  · simp [countOverlapsF, if_pos hr]
  · intro c hc
    obtain ⟨f, hf⟩ := hc
    simp only [countOverlapsF, if_pos hr] at hf
    injection hf with hf
    exact hf.symm
  · simp only [overlapsInit, if_neg (by omega : ¬ r.start < r.stop)]
    simp only [runOverlaps, overlapsNext, overlapsNextAux]
    rw [if_pos (Or.inl (by omega))]
  · intro out hout
    obtain ⟨f, hf⟩ := hout
    simp only [overlapsInit, if_neg (by omega : ¬ r.start < r.stop)] at hf
    exact runOverlaps_empty_state nc r _ _ rfl f out hf
  · have hskip : skipTo nc (rootLink nc).2 (rootLink nc).2 r.start = (rootLink nc).2 := by
      simp [skipTo, binSearchEnd, sliceEnds, searchIdx, rustBinarySearch]
    simp only [orderedInit, if_pos hr, hskip]
    simp only [runOrdered, orderedNext, orderedNextAux]
    rw [if_neg (by omega)]
  · intro out hout
    obtain ⟨f, hf⟩ := hout
    simp only [orderedInit, if_pos hr] at hf
    have hskip : skipTo nc (rootLink nc).2 (rootLink nc).2 r.start = (rootLink nc).2 := by
      simp [skipTo, binSearchEnd, sliceEnds, searchIdx, rustBinarySearch]
    rw [hskip] at hf
    match f with
    | 0 => cases hf
    | f + 1 =>
      simp only [runOrdered, orderedNext, orderedNextAux] at hf
      rw [if_neg (by omega)] at hf
      injection hf with hf
      exact hf.symm

/-- Witness for C7 at the built `ncEx` and the inverted query `[8, 7)`. -/
theorem inverted_query_empty_witness :
    (CRun ncEx ⟨8, 7⟩ 0 ∧ ∀ c, CRun ncEx ⟨8, 7⟩ c → c = 0) ∧
    (ORun ncEx ⟨8, 7⟩ [] ∧ ∀ out, ORun ncEx ⟨8, 7⟩ out → out = []) ∧
    (DRun ncEx ⟨8, 7⟩ [] ∧ ∀ out, DRun ncEx ⟨8, 7⟩ out → out = []) :=
  inverted_query_empty vEx ncEx ⟨8, 7⟩ (by decide) (by decide)

/-! ### Toolkit for the in-order subtree reading -/

theorem inorder_base (nc : NClist) (f s e : Nat) (h : ¬ s < e) :
    inorder nc f s e = some [] := by
  rw [inorder.eq_def]
  simp only [if_neg h]

theorem inorder_zero (nc : NClist) (s e : Nat) (h : s < e) :
    inorder nc 0 s e = none := by
  rw [inorder.eq_def]
  simp only [if_pos h]

theorem inorder_succ (nc : NClist) (f s e : Nat) (h : s < e) :
    inorder nc (f + 1) s e =
      match (match childLink nc s with
             | some (cs, ce) => inorder nc f cs ce
             | none => some []),
        inorder nc (f + 1) (s + 1) e with
      | some c, some t => some (s :: (c ++ t))
      | _, _ => none := by
  rw [inorder.eq_def]
  simp only [if_pos h]

theorem inorder_mono (nc : NClist) : ∀ f g s e l, f ≤ g →
    inorder nc f s e = some l → inorder nc g s e = some l := by
  intro f
  induction f using Nat.strong_induction_on with
  | _ f IHf =>
    suffices key : ∀ n s e, e - s ≤ n → ∀ g l, f ≤ g →
        inorder nc f s e = some l → inorder nc g s e = some l by
      intro g s e l
      exact key (e - s) s e (le_refl _) g l
    intro n
    induction n with
    | zero =>
      intro s e hn g l _ h
      rw [inorder_base nc f s e (by omega)] at h
      injection h with h
      rw [inorder_base nc g s e (by omega), h]
    | succ n IHn =>
      intro s e hn g l hfg h
      by_cases hse : s < e
      · match f, g with
        | 0, _ => rw [inorder_zero nc s e hse] at h; cases h
        | _ + 1, 0 => omega
        | f' + 1, g' + 1 =>
          rw [inorder_succ nc f' s e hse] at h
          rw [inorder_succ nc g' s e hse]
          rcases hc : (match childLink nc s with
              | some (cs, ce) => inorder nc f' cs ce
              | none => some []) with _ | c
          · rw [hc] at h; cases h
          · rcases ht : inorder nc (f' + 1) (s + 1) e with _ | t
            · rw [hc, ht] at h
              cases h
            · rw [hc, ht] at h
              injection h with h
              have hc' : (match childLink nc s with
                  | some (cs, ce) => inorder nc g' cs ce
                  | none => some []) = some c := by
                rcases hcl : childLink nc s with _ | se
                · rw [hcl] at hc
                  exact hc
                · rw [hcl] at hc
                  rcases se with ⟨cs, ce⟩
                  exact IHf f' (by omega) g' cs ce c (by omega) hc
              have ht' : inorder nc (g' + 1) (s + 1) e = some t :=
                IHn (s + 1) e (by omega) (g' + 1) t (by omega) ht
              rw [hc', ht']
              show some (s :: (c ++ t)) = some l
              rw [h]
      · rw [inorder_base nc f s e hse] at h
        injection h with h
        rw [inorder_base nc g s e hse, h]

theorem SubtreeIs_det {nc : NClist} {s e : Nat} {l l' : List Nat}
    (h : SubtreeIs nc s e l) (h' : SubtreeIs nc s e l') : l = l' := by
  obtain ⟨f, hf⟩ := h
  obtain ⟨g, hg⟩ := h'
  have h1 := inorder_mono nc f (max f g) s e l (le_max_left _ _) hf
  have h2 := inorder_mono nc g (max f g) s e l' (le_max_right _ _) hg
  rw [h1] at h2
  exact Option.some.inj h2

theorem SubtreeIs_nil (nc : NClist) {s e : Nat} (h : ¬ s < e) :
    SubtreeIs nc s e [] :=
  ⟨0, inorder_base nc 0 s e h⟩

theorem SubtreeIs_step (nc : NClist) {s e : Nat} {c t : List Nat} (hse : s < e)
    (hc : match childLink nc s with
          | some (cs, ce) => SubtreeIs nc cs ce c
          | none => c = [])
    (ht : SubtreeIs nc (s + 1) e t) :
    SubtreeIs nc s e (s :: (c ++ t)) := by
  obtain ⟨ft, hft⟩ := ht
  rcases hcl : childLink nc s with _ | ⟨cs, ce⟩
  · rw [hcl] at hc
    refine ⟨ft + 1, ?_⟩
    rw [inorder_succ nc ft s e hse]
    have hcm : (match childLink nc s with
        | some (cs, ce) => inorder nc ft cs ce
        | none => some []) = some c := by
      rw [hcl, hc]
    rw [hcm, inorder_mono nc ft (ft + 1) (s + 1) e t (by omega) hft]
  · rw [hcl] at hc
    obtain ⟨fc, hfc⟩ := hc
    refine ⟨max fc ft + 1, ?_⟩
    rw [inorder_succ nc (max fc ft) s e hse]
    have hcm : (match childLink nc s with
        | some (cs, ce) => inorder nc (max fc ft) cs ce
        | none => some []) = some c := by
      rw [hcl]
      exact inorder_mono nc fc (max fc ft) cs ce c (le_max_left _ _) hfc
    rw [hcm, inorder_mono nc ft (max fc ft + 1) (s + 1) e t (by omega) hft]

theorem SubtreeIs_cases (nc : NClist) {s e : Nat} {l : List Nat} (hse : s < e)
    (h : SubtreeIs nc s e l) :
    ∃ c t, (match childLink nc s with
            | some (cs, ce) => SubtreeIs nc cs ce c
            | none => c = []) ∧
      SubtreeIs nc (s + 1) e t ∧ l = s :: (c ++ t) := by
  obtain ⟨f, hf⟩ := h
  match f with
  | 0 => rw [inorder_zero nc s e hse] at hf; cases hf
  | f + 1 =>
    rw [inorder_succ nc f s e hse] at hf
    rcases hc : (match childLink nc s with
        | some (cs, ce) => inorder nc f cs ce
        | none => some []) with _ | c
    · rw [hc] at hf; cases hf
    · rcases ht : inorder nc (f + 1) (s + 1) e with _ | t
      · rw [hc, ht] at hf; cases hf
      · rw [hc, ht] at hf
        injection hf with hf
        refine ⟨c, t, ?_, ⟨f + 1, ht⟩, hf.symm⟩
        rcases hcl : childLink nc s with _ | ⟨cs, ce⟩
        · rw [hcl] at hc
          injection hc with hc
          exact hc.symm
        · rw [hcl] at hc
          exact ⟨f, hc⟩

/-- Propagation of a pointwise property through a subtree reading: if every
direct index of the range satisfies `P` and `P` is inherited through
containment links, then everything read satisfies `P`. -/
theorem SubtreeIs_all (nc : NClist) (P : Nat → Prop)
    (hstep : ∀ i cs ce j, P i → childLink nc i = some (cs, ce) →
      cs ≤ j → j < ce → P j) :
    ∀ f s e l, inorder nc f s e = some l →
      (∀ i, s ≤ i → i < e → P i) → ∀ j ∈ l, P j := by
  intro f
  induction f using Nat.strong_induction_on with
  | _ f IHf =>
    suffices key : ∀ n s e, e - s ≤ n → ∀ l, inorder nc f s e = some l →
        (∀ i, s ≤ i → i < e → P i) → ∀ j ∈ l, P j by
      intro s e l h hP
      exact key (e - s) s e (le_refl _) l h hP
    intro n
    induction n with
    | zero =>
      intro s e hn l h hP j hj
      rw [inorder_base nc f s e (by omega)] at h
      injection h with h
      rw [← h] at hj
      cases hj
    | succ n IHn =>
      intro s e hn l h hP j hj
      by_cases hse : s < e
      · match f with
        | 0 => rw [inorder_zero nc s e hse] at h; cases h
        | f' + 1 =>
          rw [inorder_succ nc f' s e hse] at h
          rcases hc : (match childLink nc s with
              | some (cs, ce) => inorder nc f' cs ce
              | none => some []) with _ | c
          · rw [hc] at h; cases h
          · rcases ht : inorder nc (f' + 1) (s + 1) e with _ | t
            · rw [hc, ht] at h; cases h
            · rw [hc, ht] at h
              injection h with h
              rw [← h] at hj
              rcases List.mem_cons.mp hj with hj | hj
              · subst hj
                exact hP j (le_refl _) hse
              · rcases List.mem_append.mp hj with hj | hj
                · rcases hcl : childLink nc s with _ | ⟨cs, ce⟩
                  · rw [hcl] at hc
                    injection hc with hc
                    rw [← hc] at hj
                    cases hj
                  · rw [hcl] at hc
                    have hPs : P s := hP s (le_refl _) hse
                    exact IHf f' (by omega) cs ce c hc
                      (fun i h1 h2 => hstep s cs ce i hPs hcl h1 h2) j hj
                · exact IHn (s + 1) e (by omega) t ht
                    (fun i h1 h2 => hP i (by omega) h2) j hj
      · rw [inorder_base nc f s e hse] at h
        injection h with h
        rw [← h] at hj
        cases hj

/-- Decomposition of a subtree reading at a middle position: the reading of
`[s, e)` is the reading of `[s, mid)` truncated at `mid` followed by the
reading of `[mid, e)`. -/
theorem SubtreeIs_split (nc : NClist) : ∀ (k s mid e : Nat), mid - s ≤ k →
    s ≤ mid → mid ≤ e → ∀ l, SubtreeIs nc s e l →
    ∃ l1 l2, SubtreeIs nc s mid l1 ∧ SubtreeIs nc mid e l2 ∧ l = l1 ++ l2 := by
  intro k
  induction k with
  | zero =>
    intro s mid e hk h1 h2 l h
    have : s = mid := by omega
    subst this
    exact ⟨[], l, SubtreeIs_nil nc (by omega), h, rfl⟩
  | succ k IH =>
    intro s mid e hk h1 h2 l h
    by_cases hsm : s < mid
    · obtain ⟨c, t, hc, ht, hl⟩ := SubtreeIs_cases nc (by omega) h
      obtain ⟨l1, l2, ha, hb, hab⟩ := IH (s + 1) mid e (by omega) (by omega) h2 t ht
      refine ⟨s :: (c ++ l1), l2, ?_, hb, by rw [hl, hab]; simp⟩
      exact SubtreeIs_step nc hsm hc ha
    · have : s = mid := by omega
      subst this
      exact ⟨[], l, SubtreeIs_nil nc (by omega), h, rfl⟩

/-! ### Stability of already placed data through the construction loop -/

theorem buildAll_intervals_prefix : ∀ (n : Nat) (qs : List NClistBuilder)
    (res : NClist), (qs.map bSize).sum ≤ n →
    ∃ t, (buildAll qs res).intervals = res.intervals ++ t := by
  intro n
  induction n with
  | zero =>
    intro qs res hm
    match qs with
    | [] => exact ⟨[], by simp [buildAll_nil]⟩
    | b :: bs =>
      exfalso
      have : ((b :: bs).map bSize).sum = bSize b + (bs.map bSize).sum := by simp
      have : 1 ≤ bSize b := by simp [bSize]
      omega
  | succ n IH =>
    intro qs res hm
    match qs with
    | [] => exact ⟨[], by simp [buildAll_nil]⟩
    | b :: bs =>
      rw [buildAll_cons]
      have hsum : ((bs ++ (buildStep res b).2).map bSize).sum
          = (bs.map bSize).sum + (((buildStep res b).2).map bSize).sum := by simp
      have hm' := buildStep_measure res b
      have hcons : ((b :: bs).map bSize).sum = bSize b + (bs.map bSize).sum := by simp
      obtain ⟨t, ht⟩ := IH (bs ++ (buildStep res b).2) (buildStep res b).1 (by omega)
      rw [ht, buildStep_fst_intervals]
      exact ⟨_, List.append_assoc _ _ _⟩

theorem buildAll_getIv (qs : List NClistBuilder) (res : NClist) {i : Nat}
    (h : i < res.intervals.length) :
    getIv (buildAll qs res) i = getIv res i := by
  obtain ⟨t, ht⟩ := buildAll_intervals_prefix ((qs.map bSize).sum) qs res (le_refl _)
  unfold getIv
  rw [ht]
  exact getD_append_lt _ _ _ _ h

theorem buildAll_contained_stable : ∀ (n : Nat) (qs : List NClistBuilder)
    (res : NClist), (qs.map bSize).sum ≤ n → Inv res qs →
    ∀ p, p < res.contained.length → (∀ b ∈ qs, b.contained_pos ≠ p) →
    (buildAll qs res).contained.getD p none = res.contained.getD p none := by
  intro n
  induction n with
  | zero =>
    intro qs res hm hInv p hp hq
    match qs with
    | [] => rw [buildAll_nil]
    | b :: bs =>
      exfalso
      have : ((b :: bs).map bSize).sum = bSize b + (bs.map bSize).sum := by simp
      have : 1 ≤ bSize b := by simp [bSize]
      omega
  | succ n IH =>
    intro qs res hm hInv p hp hq
    match qs with
    | [] => rw [buildAll_nil]
    | b :: bs =>
      obtain ⟨hWF, hB, hNd⟩ := hInv
      obtain ⟨hbpos, _, _, _⟩ := hB b (List.mem_cons_self _ _)
      have hNc : res.contained.length = res.intervals.length + 1 := hWF.clen
      rw [buildAll_cons]
      have hsum : ((bs ++ (buildStep res b).2).map bSize).sum
          = (bs.map bSize).sum + (((buildStep res b).2).map bSize).sum := by simp
      have hm' := buildStep_measure res b
      have hcons : ((b :: bs).map bSize).sum = bSize b + (bs.map bSize).sum := by simp
      have hnbpos : ∀ nb ∈ (buildStep res b).2, res.intervals.length < nb.contained_pos := by
        intro nb hnb
        rw [buildStep_snd_eq] at hnb
        obtain ⟨i, o, run, h1, h2, h3⟩ :=
          enumFrom_filterMap_mem (groupRuns b.intervals) 0 res.intervals.length nb
            (by simpa [List.enum] using hnb)
        rw [h3]
        simp only []
        omega
      have hstep := IH (bs ++ (buildStep res b).2) (buildStep res b).1 (by omega)
        (buildStep_inv ⟨hWF, hB, hNd⟩) p
        (by rw [buildStep_clen]; omega)
        (by
          intro b' hb'
          rcases List.mem_append.mp hb' with h | h
          · exact hq b' (List.mem_cons_of_mem _ h)
          · have := hnbpos b' h
            omega)
      rw [hstep, buildStep_contained_getD res b hbpos p,
        if_neg (fun he => hq b (List.mem_cons_self _ _) he.symm), if_pos hp]

/-! ### The subtree reading of the final structure recovers each group -/

theorem forall₂_append_split {α β : Type} {R : α → β → Prop} :
    ∀ (l₁ l₂ : List α) (l : List β), List.Forall₂ R (l₁ ++ l₂) l →
    ∃ m₁ m₂, l = m₁ ++ m₂ ∧ List.Forall₂ R l₁ m₁ ∧ List.Forall₂ R l₂ m₂ := by
  intro l₁
  induction l₁ with
  | nil => intro l₂ l h; exact ⟨[], l, rfl, List.Forall₂.nil, h⟩
  | cons a t IH =>
    intro l₂ l h
    cases h with
    | cons hab h' =>
      obtain ⟨m₁, m₂, rfl, hm₁, hm₂⟩ := IH l₂ _ h'
      exact ⟨_ :: m₁, m₂, rfl, List.Forall₂.cons hab hm₁, hm₂⟩

/-- Gluing one group back together: if the owners of `runs` sit at positions
`B + k + i` of the final structure, empty runs left their slots at `none`, and
each non-empty run's builder reads back its elements, then the slice
`[B + k, B + k + |runs|)` reads back the whole group in order. -/
theorem owners_glue (nc : NClist) (B : Nat) :
    ∀ (runs : List (Iv × List Iv)) (k : Nat) (ls : List (List Nat)),
    List.Forall₂ (BuilderOk nc)
      ((runs.enumFrom k).filterMap (fun p =>
        if p.2.2.isEmpty then none
        else some (NClistBuilder.mk p.2.2 (B + p.1 + 1)))) ls →
    (∀ i, i < runs.length → getIv nc (B + k + i) = (runs.getD i (⟨0, 0⟩, [])).1) →
    (∀ i, i < runs.length → (runs.getD i (⟨0, 0⟩, [])).2 = [] →
      childLink nc (B + k + i) = none) →
    ∃ l, SubtreeIs nc (B + k) (B + k + runs.length) l ∧
      l.map (getIv nc) = (runs.map (fun p => p.1 :: p.2)).flatten := by
  intro runs
  induction runs with
  | nil =>
    intro k ls _ _ _
    exact ⟨[], SubtreeIs_nil nc (by simp), rfl⟩
  | cons hd rest IH =>
    intro k ls hF hIv hNone
    rcases hd with ⟨o, run⟩
    simp only [List.enumFrom, List.filterMap_cons] at hF
    have hIv' : ∀ i, i < rest.length →
        getIv nc (B + (k + 1) + i) = (rest.getD i (⟨0, 0⟩, [])).1 := by
      intro i hi
      have := hIv (i + 1) (by simp; omega)
      rw [List.getD_cons_succ] at this
      rwa [show B + k + (i + 1) = B + (k + 1) + i by omega] at this
    have hNone' : ∀ i, i < rest.length → (rest.getD i (⟨0, 0⟩, [])).2 = [] →
        childLink nc (B + (k + 1) + i) = none := by
      intro i hi hrun
      have := hNone (i + 1) (by simp; omega)
      rw [List.getD_cons_succ] at this
      have h2 := this hrun
      rwa [show B + k + (i + 1) = B + (k + 1) + i by omega] at h2
    have hIv0 : getIv nc (B + k) = o := by
      have := hIv 0 (by simp)
      simpa using this
    by_cases hruncase : run.isEmpty
    · rw [if_pos hruncase] at hF
      obtain ⟨l_rest, hsub, hmap⟩ := IH (k + 1) ls hF hIv' hNone'
      have hrun : run = [] := List.isEmpty_iff.mp hruncase
      have hchild : childLink nc (B + k) = none := by
        have := hNone 0 (by simp)
        simp only [List.getD_cons_zero] at this
        simpa using this hrun
      refine ⟨(B + k) :: ([] ++ l_rest), ?_, ?_⟩
      · refine SubtreeIs_step nc (by simp) (by rw [hchild]) ?_
        have hlen : B + k + ((o, run) :: rest).length = B + (k + 1) + rest.length := by
          simp only [List.length_cons]
          omega
        rw [show B + k + 1 = B + (k + 1) from rfl, hlen]
        exact hsub
      · simp only [List.nil_append, List.map_cons, hIv0, hmap, hrun,
          List.flatten_cons, List.cons_append, List.nil_append]
    · rw [if_neg hruncase] at hF
      cases hF with
      | cons h0 hF' =>
        rename_i l₀ ls_rest
        obtain ⟨s₀, e₀, hslot, hsub₀, hmap₀⟩ := h0
        obtain ⟨l_rest, hsub, hmap⟩ := IH (k + 1) ls_rest hF' hIv' hNone'
        have hchild : childLink nc (B + k) = some (s₀, e₀) := by
          simp only [childLink]
          simpa using hslot
        refine ⟨(B + k) :: (l₀ ++ l_rest), ?_, ?_⟩
        · refine SubtreeIs_step nc (by simp) (by rw [hchild]; exact hsub₀) ?_
          have hlen : B + k + ((o, run) :: rest).length = B + (k + 1) + rest.length := by
            simp only [List.length_cons]
            omega
          rw [show B + k + 1 = B + (k + 1) from rfl, hlen]
          exact hsub
        · simp only [List.map_cons, List.map_append, hIv0, hmap₀, hmap,
            List.flatten_cons, List.cons_append]

/-- The backward induction: after the construction loop has finished, every
builder that was pending at any intermediate state reads back its group from
the slot it targeted. -/
theorem buildAll_back : ∀ (n : Nat) (qs : List NClistBuilder) (res : NClist),
    (qs.map bSize).sum ≤ n → Inv res qs →
    ∃ ls, List.Forall₂ (BuilderOk (buildAll qs res)) qs ls := by
  intro n
  induction n with
  | zero =>
    intro qs res hm hInv
    match qs with
    | [] => exact ⟨[], List.Forall₂.nil⟩
    | b :: bs =>
      exfalso
      have : ((b :: bs).map bSize).sum = bSize b + (bs.map bSize).sum := by simp
      have : 1 ≤ bSize b := by simp [bSize]
      omega
  | succ n IH =>
    intro qs res hm hInv
    match qs with
    | [] => exact ⟨[], List.Forall₂.nil⟩
    | b :: bs =>
      obtain ⟨hWF, hB, hNd⟩ := hInv
      obtain ⟨hbpos, _, _, _⟩ := hB b (List.mem_cons_self _ _)
      have hNc : res.contained.length = res.intervals.length + 1 := hWF.clen
      have hInv' : Inv (buildStep res b).1 (bs ++ (buildStep res b).2) :=
        buildStep_inv ⟨hWF, hB, hNd⟩
      have hsum : ((bs ++ (buildStep res b).2).map bSize).sum
          = (bs.map bSize).sum + (((buildStep res b).2).map bSize).sum := by simp
      have hm' := buildStep_measure res b
      have hcons : ((b :: bs).map bSize).sum = bSize b + (bs.map bSize).sum := by simp
      rw [buildAll_cons]
      obtain ⟨ls', hls'⟩ := IH (bs ++ (buildStep res b).2) (buildStep res b).1
        (by omega) hInv'
      obtain ⟨ls_bs, ls_nbs, rfl, hFbs, hFnbs⟩ := forall₂_append_split _ _ _ hls'
      -- abbreviations
      have hnbpos : ∀ nb ∈ (buildStep res b).2, res.intervals.length < nb.contained_pos := by
        intro nb hnb
        rw [buildStep_snd_eq] at hnb
        obtain ⟨i, o, run, h1, h2, h3⟩ :=
          enumFrom_filterMap_mem (groupRuns b.intervals) 0 res.intervals.length nb
            (by simpa [List.enum] using hnb)
        rw [h3]
        simp only []
        omega
      have hstable : ∀ p, p < (buildStep res b).1.contained.length →
          (∀ b' ∈ bs ++ (buildStep res b).2, b'.contained_pos ≠ p) →
          (buildAll (bs ++ (buildStep res b).2) (buildStep res b).1).contained.getD p none
            = (buildStep res b).1.contained.getD p none :=
        fun p h1 h2 => buildAll_contained_stable _ _ _ (le_refl _) hInv' p h1 h2
      have hbs_pos : ∀ b' ∈ bs, b'.contained_pos < res.contained.length := by
        intro b' hb'
        exact (hB b' (List.mem_cons_of_mem _ hb')).1
      -- the glue lemma delivers the subtree list of b's freshly written slot
      have hIvOwn : ∀ i, i < (groupRuns b.intervals).length →
          getIv (buildAll (bs ++ (buildStep res b).2) (buildStep res b).1)
            (res.intervals.length + 0 + i)
            = ((groupRuns b.intervals).getD i (⟨0, 0⟩, [])).1 := by
        intro i hi
        rw [show res.intervals.length + 0 + i = res.intervals.length + i by omega]
        rw [buildAll_getIv _ _ (by rw [buildStep_ilen]; omega)]
        rw [buildStep_getIv_new res b i]
        rw [getD_eq_getElem _ _ (by simp; omega), List.getElem_map,
          getD_eq_getElem _ _ (by omega)]
      have hNoneOwn : ∀ i, i < (groupRuns b.intervals).length →
          ((groupRuns b.intervals).getD i (⟨0, 0⟩, [])).2 = [] →
          childLink (buildAll (bs ++ (buildStep res b).2) (buildStep res b).1)
            (res.intervals.length + 0 + i) = none := by
        intro i hi hrun
        rw [show res.intervals.length + 0 + i = res.intervals.length + i by omega]
        simp only [childLink]
        rw [hstable (res.intervals.length + i + 1)
          (by rw [buildStep_clen]; omega) ?_]
        · rw [buildStep_contained_getD res b hbpos, if_neg (by omega), if_neg (by omega)]
        · intro b' hb'
          rcases List.mem_append.mp hb' with h | h
          · have := hbs_pos b' h
            omega
          · rw [buildStep_snd_eq] at h
            obtain ⟨j, o, runj, h1, h2, h3⟩ :=
              enumFrom_filterMap_mem (groupRuns b.intervals) 0 res.intervals.length b'
                (by simpa [List.enum] using h)
            rw [h3]
            simp only []
            intro he
            have hji : j = i := by omega
            subst hji
            have : (groupRuns b.intervals).getD j (⟨0, 0⟩, []) = (o, runj) := by
              rw [getD_eq_getElem _ _ (by
                by_contra hcon
                rw [List.getElem?_eq_none (by omega)] at h1
                cases h1)]
              have h5 : (groupRuns b.intervals)[j]? = some ((groupRuns b.intervals)[j]) :=
                List.getElem?_eq_getElem (by
                  by_contra hcon
                  rw [List.getElem?_eq_none (by omega)] at h1
                  cases h1)
              rw [h1] at h5
              injection h5 with h5
              exact h5.symm
            rw [this] at hrun
            exact h2 hrun
      have hFnbs' : List.Forall₂
          (BuilderOk (buildAll (bs ++ (buildStep res b).2) (buildStep res b).1))
          (((groupRuns b.intervals).enumFrom 0).filterMap (fun p =>
            if p.2.2.isEmpty then none
            else some (NClistBuilder.mk p.2.2 (res.intervals.length + p.1 + 1)))) ls_nbs :=
        hFnbs
      obtain ⟨l_b, hsub_b, hmap_b⟩ :=
        owners_glue (buildAll (bs ++ (buildStep res b).2) (buildStep res b).1)
          res.intervals.length (groupRuns b.intervals) 0 ls_nbs hFnbs' hIvOwn hNoneOwn
      refine ⟨l_b :: ls_bs, List.Forall₂.cons ?_ hFbs⟩
      refine ⟨res.intervals.length,
        res.intervals.length + (groupRuns b.intervals).length, ?_, ?_, ?_⟩
      · rw [hstable b.contained_pos (by rw [buildStep_clen]; omega) ?_]
        · rw [buildStep_contained_getD res b hbpos, if_pos rfl]
        · intro b' hb'
          rcases List.mem_append.mp hb' with h | h
          · have hNd' := hNd
            rw [List.map_cons] at hNd'
            have hni := (List.pairwise_cons.mp hNd').1
            intro he
            exact hni b'.contained_pos (List.mem_map_of_mem _ h) he.symm
          · have := hnbpos b' h
            omega
      · rw [show res.intervals.length = res.intervals.length + 0 from by omega]
        exact hsub_b
      · rw [hmap_b, groupRuns_flatten]

/-- The root slice of a built structure reads back the sorted input in
order. -/
theorem fromVec_root (v : List Iv) (nc : NClist) (h : fromVec v = .ok nc) :
    ∃ l, SubtreeIs nc (rootLink nc).1 (rootLink nc).2 l ∧
      l.map (getIv nc) = v.insertionSort sortRel := by
  unfold fromVec at h
  by_cases hv : v.any (fun e => decide (e.stop ≤ e.start))
  · rw [if_pos hv] at h
    cases h
  · rw [if_neg hv] at h
    injection h with h
    obtain ⟨ls, hls⟩ := buildAll_back _ [⟨v.insertionSort sortRel, 0⟩] NClist.new
      (le_refl _) (Inv_init v)
    cases hls with
    | cons h0 htail =>
      rename_i l₀ ls₀
      obtain ⟨s, e, hslot, hsub, hmap⟩ := h0
      rw [h] at hslot hsub hmap
      have hslot' : nc.contained.getD 0 none = some (s, e) := hslot
      have hroot : rootLink nc = (s, e) := by
        simp only [rootLink]
        rw [hslot']
        rfl
      refine ⟨l₀, ?_, ?_⟩
      · rw [hroot]
        exact hsub
      · exact hmap

/-! ### Slice facts: sorted end coordinates and the binary-search skip -/

theorem sliceEnds_getD (nc : NClist) {s e : Nat} (k : Nat) (hk : k < e - s)
    (he : e ≤ nc.intervals.length) :
    (sliceEnds nc s e).getD k 0 = (getIv nc (s + k)).stop := by
  simp only [sliceEnds]
  rw [List.getD_eq_getElem?_getD, List.getElem?_map, List.getElem?_take,
    List.getElem?_drop, if_pos hk, List.getElem?_eq_getElem (by omega)]
  rw [getIv, List.getD_eq_getElem _ _ (by omega)]
  simp

theorem sliceEnds_sorted (nc : NClist) {s e : Nat} (hg : GoodSlice nc s e) :
    (sliceEnds nc s e).Pairwise (· ≤ ·) := by
  obtain ⟨hse, he, hsort⟩ := hg
  rw [List.pairwise_iff_getElem]
  intro i j hi hj hij
  have hlen : (sliceEnds nc s e).length = e - s := sliceEnds_length nc hse he
  have h1 : (sliceEnds nc s e)[i] = (sliceEnds nc s e).getD i 0 :=
    (getD_eq_getElem _ _ hi).symm
  have h2 : (sliceEnds nc s e)[j] = (sliceEnds nc s e).getD j 0 :=
    (getD_eq_getElem _ _ hj).symm
  rw [h1, h2, sliceEnds_getD nc i (by omega) he, sliceEnds_getD nc j (by omega) he]
  exact (hsort (s + i) (s + j) (by omega) (by omega) (by omega)).2

theorem GoodSlice_of_link {nc : NClist} (hWF : WF nc) {p s e : Nat}
    (h : nc.contained.getD p none = some (s, e)) : GoodSlice nc s e :=
  ⟨(hWF.bounds p s e h).1, (hWF.bounds p s e h).2, hWF.sorted p s e h⟩

theorem GoodSlice_mono {nc : NClist} {s e s' e' : Nat} (hg : GoodSlice nc s e)
    (h1 : s ≤ s') (h2 : s' ≤ e') (h3 : e' ≤ e) : GoodSlice nc s' e' :=
  ⟨h2, le_trans h3 hg.2.1,
    fun i j hi hij hj => hg.2.2 i j (by omega) hij (by omega)⟩

theorem skipTo_ge (nc : NClist) (s e q : Nat) : s ≤ skipTo nc s e q :=
  Nat.le_add_right _ _

theorem skipTo_le (nc : NClist) {s e : Nat} (q : Nat) (hg : GoodSlice nc s e) :
    skipTo nc s e q ≤ e := by
  have hse := hg.1
  have he := hg.2.1
  have h1 := (binSearchEnd_rank nc s e q hse he (sliceEnds_sorted nc hg)).1
  have h2 : (sliceEnds nc s e).countP (fun x => decide (x ≤ q))
      ≤ (sliceEnds nc s e).length := List.countP_le_length _
  have h3 : (sliceEnds nc s e).length = e - s := sliceEnds_length nc hse he
  simp only [skipTo]
  omega

theorem skipTo_prefix (nc : NClist) {s e : Nat} (q : Nat) (hg : GoodSlice nc s e) :
    ∀ j, s ≤ j → j < skipTo nc s e q → (getIv nc j).stop ≤ q := by
  intro j h1 h2
  have hse := hg.1
  have he := hg.2.1
  have hle := skipTo_le nc q hg
  have hr := (binSearchEnd_rank nc s e q hse he (sliceEnds_sorted nc hg)).2
    (j - s) (by simp only [skipTo] at h2 hle; omega)
  have hj : (sliceEnds nc s e).getD (j - s) 0 ≤ q := by
    rw [hr]
    simp only [skipTo] at h2
    omega
  rwa [sliceEnds_getD nc (j - s) (by simp only [skipTo] at h2 hle; omega) he,
    show s + (j - s) = j by omega] at hj

theorem skipTo_suffix (nc : NClist) {s e : Nat} (q : Nat) (hg : GoodSlice nc s e) :
    ∀ j, skipTo nc s e q ≤ j → j < e → q < (getIv nc j).stop := by
  intro j h1 h2
  have hse := hg.1
  have he := hg.2.1
  have hs1 : s ≤ j := le_trans (skipTo_ge nc s e q) h1
  have hr := (binSearchEnd_rank nc s e q hse he (sliceEnds_sorted nc hg)).2
    (j - s) (by simp only [skipTo] at h1; omega)
  have hj : ¬ (sliceEnds nc s e).getD (j - s) 0 ≤ q := by
    rw [hr]
    simp only [skipTo] at h1
    omega
  rw [sliceEnds_getD nc (j - s) (by simp only [skipTo] at h1; omega) he,
    show s + (j - s) = j by omega] at hj
  omega

/-! ### The remaining-scan view of a slice cursor -/

theorem curScan_nil (nc : NClist) (r : Iv) {pos e : Nat}
    (h : e - pos = 0 ∨ r.stop ≤ (getIv nc pos).start) :
    curScan nc r pos e = [] := by
  rcases h with h | h
  · simp [curScan, h]
  · rcases he : e - pos with _ | n
    · simp [curScan, he]
    · simp only [curScan, he, List.range'_succ, List.takeWhile_cons]
      rw [if_neg (by simp only [decide_eq_true_eq]; omega)]

theorem curScan_cons (nc : NClist) (r : Iv) {pos e : Nat} (h1 : pos < e)
    (h2 : (getIv nc pos).start < r.stop) :
    curScan nc r pos e = pos :: curScan nc r (pos + 1) e := by
  have he : e - pos = (e - (pos + 1)) + 1 := by omega
  simp only [curScan, he, List.range'_succ, List.takeWhile_cons]
  rw [if_pos (by simp only [decide_eq_true_eq]; exact h2)]

theorem sliceScan_eq_curScan (nc : NClist) (r : Iv) (s e : Nat) :
    sliceScan nc r s e = curScan nc r (skipTo nc s e r.start) e := rfl

theorem scanChildren_nil (nc : NClist) : scanChildren nc [] = [] := rfl

theorem scanChildren_cons (nc : NClist) (i : Nat) (scan : List Nat) :
    scanChildren nc (i :: scan) =
      (match childLink nc i with
       | some se => [se]
       | none => []) ++ scanChildren nc scan := by
  simp only [scanChildren, List.filterMap_cons]
  rcases childLink nc i with _ | se <;> simp

theorem filter_eq_nil_of {α : Type} (p : α → Bool) :
    ∀ l : List α, (∀ a ∈ l, p a = false) → l.filter p = [] := by
  intro l h
  induction l with
  | nil => rfl
  | cons a t ih =>
    rw [List.filter_cons, h a (List.mem_cons_self _ _)]
    simpa using ih (fun x hx => h x (List.mem_cons_of_mem _ hx))

/-! ### Non-overlap propagation through subtrees -/

theorem subtree_stop_le (nc : NClist) (hnest : linkContained nc) (q : Nat)
    {f s e : Nat} {l : List Nat} (h : inorder nc f s e = some l)
    (hall : ∀ i, s ≤ i → i < e → (getIv nc i).stop ≤ q) :
    ∀ j ∈ l, (getIv nc j).stop ≤ q :=
  SubtreeIs_all nc (fun j => (getIv nc j).stop ≤ q)
    (fun i cs ce j hPi hcl h1 h2 =>
      le_of_lt (lt_of_lt_of_le (hnest i cs ce hcl j h1 h2).2 hPi))
    f s e l h hall

theorem subtree_start_ge (nc : NClist) (hnest : linkContained nc) (q : Nat)
    {f s e : Nat} {l : List Nat} (h : inorder nc f s e = some l)
    (hall : ∀ i, s ≤ i → i < e → q ≤ (getIv nc i).start) :
    ∀ j ∈ l, q ≤ (getIv nc j).start :=
  SubtreeIs_all nc (fun j => q ≤ (getIv nc j).start)
    (fun i cs ce j hPi hcl h1 h2 => le_trans hPi (hnest i cs ce hcl j h1 h2).1)
    f s e l h hall

/-- Splitting an in-order reading at a middle position, preserving the fuel. -/
theorem inorder_split_fuel (nc : NClist) : ∀ (k s mid e : Nat), mid - s ≤ k →
    s ≤ mid → mid ≤ e → ∀ f l, inorder nc f s e = some l →
    ∃ l1 l2, inorder nc f s mid = some l1 ∧ inorder nc f mid e = some l2 ∧
      l = l1 ++ l2 := by
  intro k
  induction k with
  | zero =>
    intro s mid e hk h1 h2 f l h
    have hsm : s = mid := by omega
    subst hsm
    exact ⟨[], l, inorder_base nc f s s (by omega), h, rfl⟩
  | succ k IH =>
    intro s mid e hk h1 h2 f l h
    by_cases hsm : s < mid
    · have hse : s < e := by omega
      match f with
      | 0 => rw [inorder_zero nc s e hse] at h; cases h
      | f' + 1 =>
        rw [inorder_succ nc f' s e hse] at h
        rcases hc : (match childLink nc s with
            | some (cs, ce) => inorder nc f' cs ce
            | none => some []) with _ | c
        · rw [hc] at h; cases h
        · rcases ht : inorder nc (f' + 1) (s + 1) e with _ | t
          · rw [hc, ht] at h; cases h
          · rw [hc, ht] at h
            injection h with h
            obtain ⟨t1, t2, ha, hb, rfl⟩ :=
              IH (s + 1) mid e (by omega) (by omega) h2 (f' + 1) t ht
            refine ⟨s :: (c ++ t1), t2, ?_, hb, ?_⟩
            · rw [inorder_succ nc f' s mid hsm, hc, ha]
            · rw [← h]
              simp
    · have hsm' : s = mid := by omega
      subst hsm'
      exact ⟨[], l, inorder_base nc f s s (by omega), h, rfl⟩

/-! ### Toolkit for the pruned depth-first reading -/

theorem dfsCur_base (nc : NClist) (r : Iv) (f pos bd : Nat)
    (h : ¬ (pos < bd ∧ (getIv nc pos).start < r.stop)) :
    dfsCur nc r f pos bd = some [] := by
  rw [dfsCur.eq_def]
  simp only [if_neg h]

theorem dfsCur_zero (nc : NClist) (r : Iv) (pos bd : Nat)
    (h : pos < bd ∧ (getIv nc pos).start < r.stop) :
    dfsCur nc r 0 pos bd = none := by
  rw [dfsCur.eq_def]
  simp only [if_pos h]

theorem dfsCur_succ (nc : NClist) (r : Iv) (f pos bd : Nat)
    (h : pos < bd ∧ (getIv nc pos).start < r.stop) :
    dfsCur nc r (f + 1) pos bd =
      match (match childLink nc pos with
             | some (cs, ce) => dfsCur nc r f (skipTo nc cs ce r.start) ce
             | none => some []),
        dfsCur nc r (f + 1) (pos + 1) bd with
      | some c, some t => some (pos :: (c ++ t))
      | _, _ => none := by
  rw [dfsCur.eq_def]
  simp only [if_pos h]

theorem dfsCur_mono (nc : NClist) (r : Iv) : ∀ f g pos bd l, f ≤ g →
    dfsCur nc r f pos bd = some l → dfsCur nc r g pos bd = some l := by
  intro f
  induction f using Nat.strong_induction_on with
  | _ f IHf =>
    suffices key : ∀ n pos bd, bd - pos ≤ n → ∀ g l, f ≤ g →
        dfsCur nc r f pos bd = some l → dfsCur nc r g pos bd = some l by
      intro g pos bd l
      exact key (bd - pos) pos bd (le_refl _) g l
    intro n
    induction n with
    | zero =>
      intro pos bd hn g l _ h
      rw [dfsCur_base nc r f pos bd (by omega)] at h
      injection h with h
      rw [dfsCur_base nc r g pos bd (by omega), h]
    | succ n IHn =>
      intro pos bd hn g l hfg h
      by_cases hse : pos < bd ∧ (getIv nc pos).start < r.stop
      · match f, g with
        | 0, _ => rw [dfsCur_zero nc r pos bd hse] at h; cases h
        | _ + 1, 0 => omega
        | f' + 1, g' + 1 =>
          rw [dfsCur_succ nc r f' pos bd hse] at h
          rw [dfsCur_succ nc r g' pos bd hse]
          rcases hc : (match childLink nc pos with
              | some (cs, ce) => dfsCur nc r f' (skipTo nc cs ce r.start) ce
              | none => some []) with _ | c
          · rw [hc] at h; cases h
          · rcases ht : dfsCur nc r (f' + 1) (pos + 1) bd with _ | t
            · rw [hc, ht] at h
              cases h
            · rw [hc, ht] at h
              injection h with h
              have hc' : (match childLink nc pos with
                  | some (cs, ce) => dfsCur nc r g' (skipTo nc cs ce r.start) ce
                  | none => some []) = some c := by
                rcases hcl : childLink nc pos with _ | se
                · rw [hcl] at hc
                  exact hc
                · rw [hcl] at hc
                  rcases se with ⟨cs, ce⟩
                  exact IHf f' (by omega) g' (skipTo nc cs ce r.start) ce c
                    (by omega) hc
              have ht' : dfsCur nc r (g' + 1) (pos + 1) bd = some t :=
                IHn (pos + 1) bd (by omega) (g' + 1) t (by omega) ht
              rw [hc', ht']
              show some (pos :: (c ++ t)) = some l
              rw [h]
      · rw [dfsCur_base nc r f pos bd hse] at h
        injection h with h
        rw [dfsCur_base nc r g pos bd hse, h]

theorem DfsIs_det {nc : NClist} {r : Iv} {pos bd : Nat} {l l' : List Nat}
    (h : DfsIs nc r pos bd l) (h' : DfsIs nc r pos bd l') : l = l' := by
  obtain ⟨f, hf⟩ := h
  obtain ⟨g, hg⟩ := h'
  have h1 := dfsCur_mono nc r f (max f g) pos bd l (le_max_left _ _) hf
  have h2 := dfsCur_mono nc r g (max f g) pos bd l' (le_max_right _ _) hg
  rw [h1] at h2
  exact Option.some.inj h2

theorem DfsIs_base (nc : NClist) (r : Iv) {pos bd : Nat}
    (h : ¬ (pos < bd ∧ (getIv nc pos).start < r.stop)) :
    DfsIs nc r pos bd [] :=
  ⟨0, dfsCur_base nc r 0 pos bd h⟩

theorem DfsIs_step (nc : NClist) (r : Iv) {pos bd : Nat} {c t : List Nat}
    (h1 : pos < bd) (h2 : (getIv nc pos).start < r.stop)
    (hc : match childLink nc pos with
          | some (cs, ce) => DfsIs nc r (skipTo nc cs ce r.start) ce c
          | none => c = [])
    (ht : DfsIs nc r (pos + 1) bd t) :
    DfsIs nc r pos bd (pos :: (c ++ t)) := by
  obtain ⟨ft, hft⟩ := ht
  rcases hcl : childLink nc pos with _ | ⟨cs, ce⟩
  · rw [hcl] at hc
    refine ⟨ft + 1, ?_⟩
    rw [dfsCur_succ nc r ft pos bd ⟨h1, h2⟩]
    have hcm : (match childLink nc pos with
        | some (cs, ce) => dfsCur nc r ft (skipTo nc cs ce r.start) ce
        | none => some []) = some c := by
      rw [hcl, hc]
    rw [hcm, dfsCur_mono nc r ft (ft + 1) (pos + 1) bd t (by omega) hft]
  · rw [hcl] at hc
    obtain ⟨fc, hfc⟩ := hc
    refine ⟨max fc ft + 1, ?_⟩
    rw [dfsCur_succ nc r (max fc ft) pos bd ⟨h1, h2⟩]
    have hcm : (match childLink nc pos with
        | some (cs, ce) => dfsCur nc r (max fc ft) (skipTo nc cs ce r.start) ce
        | none => some []) = some c := by
      rw [hcl]
      exact dfsCur_mono nc r fc (max fc ft) (skipTo nc cs ce r.start) ce c
        (le_max_left _ _) hfc
    rw [hcm, dfsCur_mono nc r ft (max fc ft + 1) (pos + 1) bd t (by omega) hft]

theorem DfsIs_cases (nc : NClist) (r : Iv) {pos bd : Nat} {l : List Nat}
    (hse : pos < bd ∧ (getIv nc pos).start < r.stop)
    (h : DfsIs nc r pos bd l) :
    ∃ c t, (match childLink nc pos with
            | some (cs, ce) => DfsIs nc r (skipTo nc cs ce r.start) ce c
            | none => c = []) ∧
      DfsIs nc r (pos + 1) bd t ∧ l = pos :: (c ++ t) := by
  obtain ⟨f, hf⟩ := h
  match f with
  | 0 => rw [dfsCur_zero nc r pos bd hse] at hf; cases hf
  | f + 1 =>
    rw [dfsCur_succ nc r f pos bd hse] at hf
    rcases hc : (match childLink nc pos with
        | some (cs, ce) => dfsCur nc r f (skipTo nc cs ce r.start) ce
        | none => some []) with _ | c
    · rw [hc] at hf; cases hf
    · rcases ht : dfsCur nc r (f + 1) (pos + 1) bd with _ | t
      · rw [hc, ht] at hf; cases hf
      · rw [hc, ht] at hf
        injection hf with hf
        refine ⟨c, t, ?_, ⟨f + 1, ht⟩, hf.symm⟩
        rcases hcl : childLink nc pos with _ | ⟨cs, ce⟩
        · rw [hcl] at hc
          injection hc with hc
          exact hc.symm
        · rw [hcl] at hc
          exact ⟨f, hc⟩

/-! ### The pruned depth-first reading computes the filtered subtree -/

/-- Core lemma: on a well-behaved range whose elements all end past the query
start, the pruned depth-first reading from the range's first position yields
exactly the overlapping part of the in-order subtree reading, in order. -/
theorem dfs_correct_aux (nc : NClist) (r : Iv) (hWF : WF nc) :
    ∀ f n pos e l, e - pos ≤ n → inorder nc f pos e = some l →
      GoodSlice nc pos e →
      (∀ j, pos ≤ j → j < e → r.start < (getIv nc j).stop) →
      DfsIs nc r pos e (l.filter (fun i => overlapB r (getIv nc i))) := by
  intro f
  induction f using Nat.strong_induction_on with
  | _ f IHf =>
    intro n
    induction n with
    | zero =>
      intro pos e l hn h _ _
      rw [inorder_base nc f pos e (by omega)] at h
      injection h with h
      rw [← h]
      exact DfsIs_base nc r (fun hcon => by omega)
    | succ n IHn =>
      intro pos e l hn h hg hP
      by_cases hse : pos < e
      · by_cases hst : (getIv nc pos).start < r.stop
        · match f with
          | 0 => rw [inorder_zero nc pos e hse] at h; cases h
          | f' + 1 =>
            rw [inorder_succ nc f' pos e hse] at h
            rcases hc : (match childLink nc pos with
                | some (cs, ce) => inorder nc f' cs ce
                | none => some []) with _ | c
            · rw [hc] at h; cases h
            · rcases ht : inorder nc (f' + 1) (pos + 1) e with _ | t
              · rw [hc, ht] at h; cases h
              · rw [hc, ht] at h
                injection h with h
                have hovm : overlapB r (getIv nc pos) = true := by
                  simp only [overlapB, Bool.and_eq_true, decide_eq_true_eq]
                  exact ⟨hst, hP pos (le_refl _) hse⟩
                have hfilter : l.filter (fun i => overlapB r (getIv nc i)) =
                    pos :: (c.filter (fun i => overlapB r (getIv nc i)) ++
                      t.filter (fun i => overlapB r (getIv nc i))) := by
                  rw [← h]
                  simp [List.filter_cons, hovm, List.filter_append]
                rw [hfilter]
                have htail : DfsIs nc r (pos + 1) e
                    (t.filter (fun i => overlapB r (getIv nc i))) :=
                  IHn (pos + 1) e t (by omega) ht
                    (GoodSlice_mono hg (by omega) (by omega) (le_refl _))
                    (fun j hj1 hj2 => hP j (by omega) hj2)
                refine DfsIs_step nc r hse hst ?_ htail
                rcases hcl : childLink nc pos with _ | ⟨cs, ce⟩
                · rw [hcl] at hc
                  injection hc with hc
                  rw [← hc]
                  rfl
                · rw [hcl] at hc
                  have hgc : GoodSlice nc cs ce := GoodSlice_of_link hWF hcl
                  have hm1 : cs ≤ skipTo nc cs ce r.start := skipTo_ge nc cs ce r.start
                  have hm2 : skipTo nc cs ce r.start ≤ ce := skipTo_le nc r.start hgc
                  obtain ⟨c1, c2, ha, hb, rfl⟩ :=
                    inorder_split_fuel nc (skipTo nc cs ce r.start - cs) cs
                      (skipTo nc cs ce r.start) ce (le_refl _) hm1 hm2 f' c hc
                  have hc1nil : c1.filter (fun i => overlapB r (getIv nc i)) = [] := by
                    apply filter_eq_nil_of
                    intro j hj
                    have hstop := subtree_stop_le nc hWF.nested r.start ha
                      (fun i h1 h2 => skipTo_prefix nc r.start hgc i h1 h2) j hj
                    have h2 : decide (r.start < (getIv nc j).stop) = false := by
                      simp
                      omega
                    simp [overlapB, h2]
                  rw [List.filter_append, hc1nil, List.nil_append]
                  exact IHf f' (by omega) (ce - skipTo nc cs ce r.start)
                    (skipTo nc cs ce r.start) ce c2 (le_refl _) hb
                    (GoodSlice_mono hgc hm1 hm2 (le_refl _))
                    (fun j hj1 hj2 => skipTo_suffix nc r.start hgc j hj1 hj2)
        · have hall : ∀ i, pos ≤ i → i < e → r.stop ≤ (getIv nc i).start := by
            intro i h1 h2
            have := (hg.2.2 pos i (le_refl _) h1 h2).1
            omega
          have hge := subtree_start_ge nc hWF.nested r.stop h hall
          have hnil : l.filter (fun i => overlapB r (getIv nc i)) = [] := by
            apply filter_eq_nil_of
            intro j hj
            have := hge j hj
            have h1 : decide ((getIv nc j).start < r.stop) = false := by
              simp
              omega
            simp [overlapB, h1]
          rw [hnil]
          exact DfsIs_base nc r (fun hcon => hst hcon.2)
      · rw [inorder_base nc f pos e hse] at h
        injection h with h
        rw [← h]
        exact DfsIs_base nc r (fun hcon => hse hcon.1)

/-- The pruned depth-first reading entered through the binary-search skip of a
containment-link slice yields exactly the overlapping part of that slice's
subtree reading. -/
theorem dfs_correct_link (nc : NClist) (r : Iv) (hWF : WF nc) {p s e : Nat}
    {l : List Nat} (hlink : nc.contained.getD p none = some (s, e))
    (hsub : SubtreeIs nc s e l) :
    DfsIs nc r (skipTo nc s e r.start) e
      (l.filter (fun i => overlapB r (getIv nc i))) := by
  have hg : GoodSlice nc s e := GoodSlice_of_link hWF hlink
  have hm1 : s ≤ skipTo nc s e r.start := skipTo_ge nc s e r.start
  have hm2 : skipTo nc s e r.start ≤ e := skipTo_le nc r.start hg
  obtain ⟨f, hf⟩ := hsub
  obtain ⟨l1, l2, ha, hb, rfl⟩ :=
    inorder_split_fuel nc (skipTo nc s e r.start - s) s (skipTo nc s e r.start) e
      (le_refl _) hm1 hm2 f l hf
  have hl1nil : l1.filter (fun i => overlapB r (getIv nc i)) = [] := by
    apply filter_eq_nil_of
    intro j hj
    have hstop := subtree_stop_le nc hWF.nested r.start ha
      (fun i h1 h2 => skipTo_prefix nc r.start hg i h1 h2) j hj
    have h2 : decide (r.start < (getIv nc j).stop) = false := by
      simp
      omega
    simp [overlapB, h2]
  rw [List.filter_append, hl1nil, List.nil_append]
  exact dfs_correct_aux nc r hWF f (e - skipTo nc s e r.start)
    (skipTo nc s e r.start) e l2 (le_refl _) hb
    (GoodSlice_mono hg hm1 hm2 (le_refl _))
    (fun j hj1 hj2 => skipTo_suffix nc r.start hg j hj1 hj2)

/-! ### The ordered iterator implements the pruned depth-first reading -/

theorem DfsIs_nil_not_cond {nc : NClist} {r : Iv} {pos bd : Nat}
    (h : DfsIs nc r pos bd []) :
    ¬ (pos < bd ∧ (getIv nc pos).start < r.stop) := by
  intro hcond
  obtain ⟨c, t, _, _, heq⟩ := DfsIs_cases nc r hcond h
  cases heq

theorem forall₂_const_nil {α : Type} {R : α → List Nat → Prop} :
    ∀ qs : List α, (∀ q ∈ qs, R q []) →
      List.Forall₂ R qs (qs.map fun _ => []) := by
  intro qs
  induction qs with
  | nil => intro _; exact List.Forall₂.nil
  | cons q t ih =>
    intro h
    exact List.Forall₂.cons (h q (List.mem_cons_self _ _))
      (ih (fun x hx => h x (List.mem_cons_of_mem _ hx)))

theorem orderedNextAux_none (nc : NClist) (r : Iv) :
    ∀ queue pos bd, orderedNextAux nc r queue pos bd = none →
      DfsIs nc r pos bd [] ∧ ∀ q ∈ queue, DfsIs nc r q.1 q.2 [] := by
  intro queue
  induction queue with
  | nil =>
    intro pos bd h
    simp only [orderedNextAux] at h
    by_cases hcond : pos < bd ∧ (getIv nc pos).start < r.stop
    · rw [if_pos hcond] at h
      rcases hcl : childLink nc pos with _ | ⟨cs, ce⟩ <;> rw [hcl] at h <;> cases h
    · exact ⟨DfsIs_base nc r hcond, fun q hq => absurd hq (List.not_mem_nil _)⟩
  | cons hd rest IH =>
    intro pos bd h
    rcases hd with ⟨s', b'⟩
    simp only [orderedNextAux] at h
    by_cases hcond : pos < bd ∧ (getIv nc pos).start < r.stop
    · rw [if_pos hcond] at h
      rcases hcl : childLink nc pos with _ | ⟨cs, ce⟩ <;> rw [hcl] at h <;> cases h
    · rw [if_neg hcond] at h
      obtain ⟨hd', hall⟩ := IH s' b' h
      refine ⟨DfsIs_base nc r hcond, fun q hq => ?_⟩
      rcases List.mem_cons.mp hq with hq | hq
      · rw [hq]
        exact hd'
      · exact hall q hq

theorem orderedNextAux_sound (nc : NClist) (r : Iv) :
    ∀ queue pos bd i st', orderedNextAux nc r queue pos bd = some (i, st') →
      ∀ out', OrdDen nc r st' out' → OrdDen nc r ⟨pos, bd, queue⟩ (i :: out') := by
  intro queue
  induction queue with
  | nil =>
    intro pos bd i st' h out' hden
    simp only [orderedNextAux] at h
    by_cases hcond : pos < bd ∧ (getIv nc pos).start < r.stop
    · rw [if_pos hcond] at h
      rcases hcl : childLink nc pos with _ | ⟨cs, ce⟩
      · rw [hcl] at h
        injection h with h
        injection h with h1 h2
        subst h1
        subst h2
        obtain ⟨l0, ls, hl0, hls, hout⟩ := hden
        cases hls
        refine ⟨pos :: ([] ++ l0), [], ?_, List.Forall₂.nil, ?_⟩
        · exact DfsIs_step nc r hcond.1 hcond.2 (by rw [hcl]) hl0
        · rw [hout]
          simp
      · rw [hcl] at h
        injection h with h
        injection h with h1 h2
        subst h1
        subst h2
        obtain ⟨l0, ls, hl0, hls, hout⟩ := hden
        cases hls with
        | @cons _ lt _ ls2 hq hnil =>
          cases hnil
          refine ⟨pos :: (l0 ++ lt), [], ?_, List.Forall₂.nil, ?_⟩
          · exact DfsIs_step nc r hcond.1 hcond.2 (by rw [hcl]; exact hl0) hq
          · rw [hout]
            simp
    · rw [if_neg hcond] at h
      cases h
  | cons hd rest IH =>
    intro pos bd i st' h out' hden
    rcases hd with ⟨s', b'⟩
    simp only [orderedNextAux] at h
    by_cases hcond : pos < bd ∧ (getIv nc pos).start < r.stop
    · rw [if_pos hcond] at h
      rcases hcl : childLink nc pos with _ | ⟨cs, ce⟩
      · rw [hcl] at h
        injection h with h
        injection h with h1 h2
        subst h1
        subst h2
        obtain ⟨l0, ls, hl0, hls, hout⟩ := hden
        refine ⟨pos :: ([] ++ l0), ls, ?_, hls, ?_⟩
        · exact DfsIs_step nc r hcond.1 hcond.2 (by rw [hcl]) hl0
        · rw [hout]
          simp
      · rw [hcl] at h
        injection h with h
        injection h with h1 h2
        subst h1
        subst h2
        obtain ⟨l0, ls, hl0, hls, hout⟩ := hden
        cases hls with
        | @cons _ lt _ ls2 hq hrest =>
          refine ⟨pos :: (l0 ++ lt), ls2, ?_, hrest, ?_⟩
          · exact DfsIs_step nc r hcond.1 hcond.2 (by rw [hcl]; exact hl0) hq
          · rw [hout]
            simp
    · rw [if_neg hcond] at h
      obtain ⟨l0, ls, hl0, hls, hout⟩ := IH s' b' i st' h out' hden
      refine ⟨[], l0 :: ls, DfsIs_base nc r hcond, List.Forall₂.cons hl0 hls, ?_⟩
      rw [hout]
      simp

theorem runOrdered_den (nc : NClist) (r : Iv) :
    ∀ f st out, runOrdered nc r f st = some out → OrdDen nc r st out := by
  intro f
  induction f with
  | zero => intro st out h; cases h
  | succ f IH =>
    intro st out h
    simp only [runOrdered] at h
    rcases hn : orderedNext nc r st with _ | ⟨i, st'⟩
    · rw [hn] at h
      injection h with h
      obtain ⟨h1, h2⟩ := orderedNextAux_none nc r st.queue st.pos st.bound hn
      refine ⟨[], st.queue.map (fun _ => []), h1, forall₂_const_nil st.queue h2, ?_⟩
      rw [← h]
      simp
    · have h' : Option.map (fun x => i :: x) (runOrdered nc r f st') = some out := by
        rw [hn] at h
        exact h
      rcases ho : runOrdered nc r f st' with _ | out'
      · rw [ho] at h'; cases h'
      · rw [ho] at h'
        injection h' with h'
        rw [← h']
        exact orderedNextAux_sound nc r st.queue st.pos st.bound i st' hn out'
          (IH st' out' ho)

theorem orderedNextAux_complete (nc : NClist) (r : Iv) :
    ∀ queue pos bd i out', OrdDen nc r ⟨pos, bd, queue⟩ (i :: out') →
      ∃ st', orderedNextAux nc r queue pos bd = some (i, st') ∧
        OrdDen nc r st' out' := by
  intro queue
  induction queue with
  | nil =>
    intro pos bd i out' hden
    obtain ⟨l0, ls, hl0, hls, hout⟩ := hden
    cases hls
    have hl0' : i :: out' = l0 := by simpa using hout
    by_cases hcond : pos < bd ∧ (getIv nc pos).start < r.stop
    · obtain ⟨c, t, hc, ht, hl0eq⟩ := DfsIs_cases nc r hcond hl0
      rw [hl0eq] at hl0'
      injection hl0' with hi hrest
      rw [hi]
      simp only [orderedNextAux]
      rw [if_pos hcond]
      rcases hcl : childLink nc pos with _ | ⟨cs, ce⟩
      · rw [hcl] at hc
        subst hc
        refine ⟨⟨pos + 1, bd, []⟩, rfl, t, [], ht, List.Forall₂.nil, ?_⟩
        rw [hrest]
        simp
      · rw [hcl] at hc
        refine ⟨⟨skipTo nc cs ce r.start, ce, [(pos + 1, bd)]⟩, rfl,
          c, [t], hc, List.Forall₂.cons ht List.Forall₂.nil, ?_⟩
        rw [hrest]
        simp
    · have hnil : l0 = [] := DfsIs_det hl0 (DfsIs_base nc r hcond)
      rw [hnil] at hl0'
      cases hl0'
  | cons hd rest IH =>
    intro pos bd i out' hden
    rcases hd with ⟨s', b'⟩
    obtain ⟨l0, ls, hl0, hls, hout⟩ := hden
    by_cases hcond : pos < bd ∧ (getIv nc pos).start < r.stop
    · obtain ⟨c, t, hc, ht, hl0eq⟩ := DfsIs_cases nc r hcond hl0
      rw [hl0eq] at hout
      have hout' : i :: out' = pos :: ((c ++ t) ++ ls.flatten) := by
        rw [hout]
        simp
      injection hout' with hi hrest
      rw [hi]
      simp only [orderedNextAux]
      rw [if_pos hcond]
      rcases hcl : childLink nc pos with _ | ⟨cs, ce⟩
      · rw [hcl] at hc
        subst hc
        refine ⟨⟨pos + 1, bd, (s', b') :: rest⟩, rfl, t, ls, ht, hls, ?_⟩
        rw [hrest]
        simp
      · rw [hcl] at hc
        refine ⟨⟨skipTo nc cs ce r.start, ce, (pos + 1, bd) :: (s', b') :: rest⟩,
          rfl, c, t :: ls, hc, List.Forall₂.cons ht hls, ?_⟩
        rw [hrest]
        simp
    · have hnil : l0 = [] := DfsIs_det hl0 (DfsIs_base nc r hcond)
      subst hnil
      cases hls with
      | cons hq hrest =>
        rename_i lq ls'
        have hq' : OrdDen nc r ⟨s', b', rest⟩ (i :: out') := by
          refine ⟨lq, ls', hq, hrest, ?_⟩
          rw [hout]
          simp
        obtain ⟨st', hstep, hden'⟩ := IH s' b' i out' hq'
        refine ⟨st', ?_, hden'⟩
        simp only [orderedNextAux]
        rw [if_neg hcond]
        exact hstep

theorem ordDen_nil_none (nc : NClist) (r : Iv) :
    ∀ queue pos bd, OrdDen nc r ⟨pos, bd, queue⟩ [] →
      orderedNextAux nc r queue pos bd = none := by
  intro queue
  induction queue with
  | nil =>
    intro pos bd hden
    obtain ⟨l0, ls, hl0, hls, hout⟩ := hden
    cases hls
    have hl0' : l0 = [] := by simpa using hout.symm
    rw [hl0'] at hl0
    simp only [orderedNextAux]
    rw [if_neg (DfsIs_nil_not_cond hl0)]
  | cons hd rest IH =>
    intro pos bd hden
    rcases hd with ⟨s', b'⟩
    obtain ⟨l0, ls, hl0, hls, hout⟩ := hden
    cases hls with
    | cons hq hrest =>
      rename_i lq ls'
      have h0 : l0 = [] ∧ lq = [] ∧ ls'.flatten = [] := by
        have := hout.symm
        simp only [List.flatten_cons] at this
        rcases List.append_eq_nil.mp this with ⟨ha, hb⟩
        rcases List.append_eq_nil.mp hb with ⟨hc, hd2⟩
        exact ⟨ha, hc, hd2⟩
      rw [h0.1] at hl0
      have hnext : OrdDen nc r ⟨s', b', rest⟩ [] := by
        refine ⟨lq, ls', hq, hrest, ?_⟩
        rw [h0.2.1, h0.2.2]
        rfl
      simp only [orderedNextAux]
      rw [if_neg (DfsIs_nil_not_cond hl0)]
      exact IH s' b' hnext

theorem runOrdered_complete (nc : NClist) (r : Iv) :
    ∀ out st, OrdDen nc r st out → ∃ f, runOrdered nc r f st = some out := by
  intro out
  induction out with
  | nil =>
    intro st hden
    refine ⟨1, ?_⟩
    simp only [runOrdered]
    rw [show orderedNext nc r st = none from
      ordDen_nil_none nc r st.queue st.pos st.bound hden]
  | cons i out' IH =>
    intro st hden
    obtain ⟨st', hstep, hden'⟩ :=
      orderedNextAux_complete nc r st.queue st.pos st.bound i out' hden
    obtain ⟨f, hf⟩ := IH st' hden'
    refine ⟨f + 1, ?_⟩
    have hmain : runOrdered nc r (f + 1) st
        = Option.map (fun x => i :: x) (runOrdered nc r f st') := by
      simp only [runOrdered]
      rw [show orderedNext nc r st = some (i, st') from hstep]
    rw [hmain, hf]
    rfl

theorem DRun_to_dfs {nc : NClist} {r : Iv} {out : List Nat} (h : DRun nc r out)
    (hr : r.start < r.stop) :
    DfsIs nc r (skipTo nc (rootLink nc).1 (rootLink nc).2 r.start)
      (rootLink nc).2 out := by
  obtain ⟨f, hf⟩ := h
  obtain ⟨l0, ls, hl0, hls, hout⟩ := runOrdered_den nc r f _ out hf
  simp only [orderedInit] at hls
  cases hls
  simp only [orderedInit, if_neg (by omega : ¬ r.stop ≤ r.start)] at hl0
  have hout' : out = l0 := by simpa using hout
  rw [hout']
  exact hl0

theorem dfs_to_DRun {nc : NClist} {r : Iv} {l : List Nat}
    (h : DfsIs nc r (skipTo nc (rootLink nc).1 (rootLink nc).2 r.start)
      (rootLink nc).2 l)
    (hr : r.start < r.stop) : DRun nc r l := by
  apply runOrdered_complete nc r l (orderedInit nc r)
  refine ⟨l, [], ?_, ?_, by simp⟩
  · simp only [orderedInit, if_neg (by omega : ¬ r.stop ≤ r.start)]
    exact h
  · simp only [orderedInit]
    exact List.Forall₂.nil

/-! ### Toolkit for the breadth-first reference traversal -/

theorem bfsRef_nil (nc : NClist) (r : Iv) (f : Nat) : bfsRef nc r f [] = some [] := by
  cases f <;> rfl

theorem bfsRef_succ (nc : NClist) (r : Iv) (f s e : Nat) (rest : List (Nat × Nat)) :
    bfsRef nc r (f + 1) ((s, e) :: rest)
      = (bfsRef nc r f (rest ++ scanChildren nc (sliceScan nc r s e))).map
          (fun b => sliceScan nc r s e ++ b) := rfl

theorem bfsRef_mono (nc : NClist) (r : Iv) : ∀ f g qs l, f ≤ g →
    bfsRef nc r f qs = some l → bfsRef nc r g qs = some l := by
  intro f
  induction f with
  | zero =>
    intro g qs l hfg h
    match qs with
    | [] =>
      rw [bfsRef_nil] at h
      rw [bfsRef_nil]
      exact h
    | q :: rest =>
      rw [show bfsRef nc r 0 (q :: rest) = none from rfl] at h
      cases h
  | succ f IH =>
    intro g qs l hfg h
    match qs with
    | [] =>
      rw [bfsRef_nil] at h
      rw [bfsRef_nil]
      exact h
    | (s, e) :: rest =>
      match g with
      | 0 => omega
      | g + 1 =>
        rw [bfsRef_succ] at h
        rw [bfsRef_succ]
        rcases hb : bfsRef nc r f (rest ++ scanChildren nc (sliceScan nc r s e))
          with _ | b
        · rw [hb] at h; cases h
        · rw [hb] at h
          rw [IH g (rest ++ scanChildren nc (sliceScan nc r s e)) b (by omega) hb]
          exact h

theorem BfsIs_det {nc : NClist} {r : Iv} {qs : List (Nat × Nat)} {l l' : List Nat}
    (h : BfsIs nc r qs l) (h' : BfsIs nc r qs l') : l = l' := by
  obtain ⟨f, hf⟩ := h
  obtain ⟨g, hg⟩ := h'
  have h1 := bfsRef_mono nc r f (max f g) qs l (le_max_left _ _) hf
  have h2 := bfsRef_mono nc r g (max f g) qs l' (le_max_right _ _) hg
  rw [h1] at h2
  exact Option.some.inj h2

theorem BfsIs_cons_elim {nc : NClist} {r : Iv} {s e : Nat} {rest : List (Nat × Nat)}
    {out : List Nat} (h : BfsIs nc r ((s, e) :: rest) out) :
    ∃ b, BfsIs nc r (rest ++ scanChildren nc (sliceScan nc r s e)) b ∧
      out = sliceScan nc r s e ++ b := by
  obtain ⟨f, hf⟩ := h
  match f with
  | 0 =>
    rw [show bfsRef nc r 0 ((s, e) :: rest) = none from rfl] at hf
    cases hf
  | g + 1 =>
    rw [bfsRef_succ] at hf
    rcases hb : bfsRef nc r g (rest ++ scanChildren nc (sliceScan nc r s e))
      with _ | b
    · rw [hb] at hf; cases hf
    · rw [hb] at hf
      injection hf with hf
      exact ⟨b, ⟨g, hb⟩, hf.symm⟩

theorem BfsIs_cons_intro {nc : NClist} {r : Iv} {s e : Nat} {rest : List (Nat × Nat)}
    {b : List Nat} (h : BfsIs nc r (rest ++ scanChildren nc (sliceScan nc r s e)) b) :
    BfsIs nc r ((s, e) :: rest) (sliceScan nc r s e ++ b) := by
  obtain ⟨f, hf⟩ := h
  refine ⟨f + 1, ?_⟩
  rw [bfsRef_succ, hf]
  rfl

/-! ### One slice's contribution to the breadth-first traversal -/

/-- Core chunk lemma: on a well-behaved range whose elements all end past the
query start, the overlapping part of the subtree reading is, as a multiset,
the remaining cursor scan plus the overlapping parts of the subtrees hanging
off the scanned elements; the subtree lists of those children are moreover
(links and) strictly smaller in total size than the reading itself. -/
theorem curScan_chunk (nc : NClist) (r : Iv) (hWF : WF nc) :
    ∀ n pos e f l, e - pos ≤ n → inorder nc f pos e = some l →
      GoodSlice nc pos e →
      (∀ j, pos ≤ j → j < e → r.start < (getIv nc j).stop) →
      ∃ lcs, List.Forall₂
          (fun (q : Nat × Nat) lq => IsLink nc q ∧ SubtreeIs nc q.1 q.2 lq)
          (scanChildren nc (curScan nc r pos e)) lcs ∧
        (lcs.map (fun lc => lc.length + 1)).sum ≤ l.length ∧
        (l.filter (fun i => overlapB r (getIv nc i))).Perm
          (curScan nc r pos e ++
            (lcs.map (fun lc =>
              lc.filter (fun i => overlapB r (getIv nc i)))).flatten) := by
  intro n
  induction n with
  | zero =>
    intro pos e f l hn h _ _
    rw [inorder_base nc f pos e (by omega)] at h
    injection h with h
    have hcs : curScan nc r pos e = [] := curScan_nil nc r (Or.inl (by omega))
    refine ⟨[], ?_, by simp, ?_⟩
    · rw [hcs]
      exact List.Forall₂.nil
    · rw [← h, hcs]
      simp
  | succ n IHn =>
    intro pos e f l hn h hg hP
    by_cases hse : pos < e
    · by_cases hst : (getIv nc pos).start < r.stop
      · match f with
        | 0 => rw [inorder_zero nc pos e hse] at h; cases h
        | f' + 1 =>
          rw [inorder_succ nc f' pos e hse] at h
          rcases hc : (match childLink nc pos with
              | some (cs, ce) => inorder nc f' cs ce
              | none => some []) with _ | c
          · rw [hc] at h; cases h
          · rcases ht : inorder nc (f' + 1) (pos + 1) e with _ | t
            · rw [hc, ht] at h; cases h
            · rw [hc, ht] at h
              injection h with h
              have hovm : overlapB r (getIv nc pos) = true := by
                simp only [overlapB, Bool.and_eq_true, decide_eq_true_eq]
                exact ⟨hst, hP pos (le_refl _) hse⟩
              have hfl : l.filter (fun i => overlapB r (getIv nc i)) =
                  pos :: (c.filter (fun i => overlapB r (getIv nc i)) ++
                    t.filter (fun i => overlapB r (getIv nc i))) := by
                rw [← h]
                simp [List.filter_cons, hovm, List.filter_append]
              have hlen : l.length = c.length + t.length + 1 := by
                rw [← h]
                simp
              obtain ⟨lcst, hFt, hsumt, hpermt⟩ := IHn (pos + 1) e (f' + 1) t
                (by omega) ht (GoodSlice_mono hg (by omega) (by omega) (le_refl _))
                (fun j hj1 hj2 => hP j (by omega) hj2)
              rcases hcl : childLink nc pos with _ | ⟨cs, ce⟩
              · rw [hcl] at hc
                injection hc with hc
                refine ⟨lcst, ?_, by omega, ?_⟩
                · rw [curScan_cons nc r hse hst, scanChildren_cons, hcl]
                  simpa using hFt
                · rw [hfl, ← hc, curScan_cons nc r hse hst]
                  simp only [List.filter_nil, List.nil_append, List.cons_append]
                  exact List.Perm.cons _ hpermt
              · rw [hcl] at hc
                refine ⟨c :: lcst, ?_, ?_, ?_⟩
                · rw [curScan_cons nc r hse hst, scanChildren_cons, hcl]
                  exact List.Forall₂.cons ⟨⟨pos + 1, hcl⟩, ⟨f', hc⟩⟩ hFt
                · simp only [List.map_cons, List.sum_cons]
                  omega
                · rw [hfl, curScan_cons nc r hse hst]
                  simp only [List.map_cons, List.flatten_cons, List.cons_append]
                  refine List.Perm.cons _ ?_
                  have h1 : (c.filter (fun i => overlapB r (getIv nc i)) ++
                      t.filter (fun i => overlapB r (getIv nc i))).Perm
                      (c.filter (fun i => overlapB r (getIv nc i)) ++
                        (curScan nc r (pos + 1) e ++
                          (lcst.map (fun lc =>
                            lc.filter (fun i => overlapB r (getIv nc i)))).flatten)) :=
                    List.Perm.append_left _ hpermt
                  refine h1.trans ?_
                  rw [← List.append_assoc, ← List.append_assoc]
                  exact List.Perm.append_right _ List.perm_append_comm
      · have hcs : curScan nc r pos e = [] := curScan_nil nc r (Or.inr (by omega))
        have hall : ∀ i, pos ≤ i → i < e → r.stop ≤ (getIv nc i).start := by
          intro i h1 h2
          have := (hg.2.2 pos i (le_refl _) h1 h2).1
          omega
        have hge := subtree_start_ge nc hWF.nested r.stop h hall
        have hnil : l.filter (fun i => overlapB r (getIv nc i)) = [] := by
          apply filter_eq_nil_of
          intro j hj
          have := hge j hj
          have h1 : decide ((getIv nc j).start < r.stop) = false := by
            simp
            omega
          simp [overlapB, h1]
        refine ⟨[], ?_, by simp, ?_⟩
        · rw [hcs]
          exact List.Forall₂.nil
        · rw [hnil, hcs]
          simp
    · rw [inorder_base nc f pos e hse] at h
      injection h with h
      have hcs : curScan nc r pos e = [] := curScan_nil nc r (Or.inl (by omega))
      refine ⟨[], ?_, by simp, ?_⟩
      · rw [hcs]
        exact List.Forall₂.nil
      · rw [← h, hcs]
        simp

/-- The chunk lemma at a full containment-link slice, entered through the
binary-search skip. -/
theorem slice_chunk (nc : NClist) (r : Iv) (hWF : WF nc) {p s e : Nat}
    {lq : List Nat} (hlink : nc.contained.getD p none = some (s, e))
    (hsub : SubtreeIs nc s e lq) :
    ∃ lcs, List.Forall₂
        (fun (q : Nat × Nat) lc => IsLink nc q ∧ SubtreeIs nc q.1 q.2 lc)
        (scanChildren nc (sliceScan nc r s e)) lcs ∧
      (lcs.map (fun lc => lc.length + 1)).sum ≤ lq.length ∧
      (lq.filter (fun i => overlapB r (getIv nc i))).Perm
        (sliceScan nc r s e ++
          (lcs.map (fun lc =>
            lc.filter (fun i => overlapB r (getIv nc i)))).flatten) := by
  have hg : GoodSlice nc s e := GoodSlice_of_link hWF hlink
  have hm1 : s ≤ skipTo nc s e r.start := skipTo_ge nc s e r.start
  have hm2 : skipTo nc s e r.start ≤ e := skipTo_le nc r.start hg
  obtain ⟨f, hf⟩ := hsub
  obtain ⟨l1, l2, ha, hb, rfl⟩ :=
    inorder_split_fuel nc (skipTo nc s e r.start - s) s (skipTo nc s e r.start) e
      (le_refl _) hm1 hm2 f lq hf
  have hl1nil : l1.filter (fun i => overlapB r (getIv nc i)) = [] := by
    apply filter_eq_nil_of
    intro j hj
    have hstop := subtree_stop_le nc hWF.nested r.start ha
      (fun i h1 h2 => skipTo_prefix nc r.start hg i h1 h2) j hj
    have h2 : decide (r.start < (getIv nc j).stop) = false := by
      simp
      omega
    simp [overlapB, h2]
  obtain ⟨lcs, hF, hsum, hperm⟩ := curScan_chunk nc r hWF (e - skipTo nc s e r.start)
    (skipTo nc s e r.start) e f l2 (le_refl _) hb
    (GoodSlice_mono hg hm1 hm2 (le_refl _))
    (fun j hj1 hj2 => skipTo_suffix nc r.start hg j hj1 hj2)
  refine ⟨lcs, hF, ?_, ?_⟩
  · have : l2.length ≤ (l1 ++ l2).length := by simp
    omega
  · rw [List.filter_append, hl1nil, List.nil_append]
    exact hperm

/-- The breadth-first traversal of a queue of link slices with known subtree
readings terminates (any fuel at least the total subtree size suffices) and
yields, as a multiset, the overlapping parts of all the subtrees. -/
theorem bfs_run (nc : NClist) (r : Iv) (hWF : WF nc) :
    ∀ M qs ls, List.Forall₂
        (fun (q : Nat × Nat) lq => IsLink nc q ∧ SubtreeIs nc q.1 q.2 lq) qs ls →
      (ls.map (fun lq => lq.length + 1)).sum ≤ M →
      ∃ out, bfsRef nc r M qs = some out ∧
        out.Perm ((ls.map (fun lq =>
          lq.filter (fun i => overlapB r (getIv nc i)))).flatten) := by
  intro M
  induction M with
  | zero =>
    intro qs ls hF hm
    cases hF with
    | nil => exact ⟨[], bfsRef_nil nc r 0, by simp⟩
    | cons h1 h2 =>
      exfalso
      simp only [List.map_cons, List.sum_cons] at hm
      omega
  | succ M IH =>
    intro qs ls hF hm
    cases hF with
    | nil => exact ⟨[], bfsRef_nil nc r (M + 1), by simp⟩
    | @cons q lq qs' ls' h1 h2 =>
      rcases q with ⟨s, e⟩
      obtain ⟨⟨p, hlink⟩, hsub⟩ := h1
      obtain ⟨lcs, hFc, hsum, hperm⟩ := slice_chunk nc r hWF hlink hsub
      have hF' : List.Forall₂
          (fun (q : Nat × Nat) lc => IsLink nc q ∧ SubtreeIs nc q.1 q.2 lc)
          (qs' ++ scanChildren nc (sliceScan nc r s e)) (ls' ++ lcs) :=
        List.rel_append h2 hFc
      have hm' : ((ls' ++ lcs).map (fun lq => lq.length + 1)).sum ≤ M := by
        simp only [List.map_cons, List.sum_cons] at hm
        simp only [List.map_append, List.sum_append]
        omega
      obtain ⟨b, hb, hbperm⟩ := IH (qs' ++ scanChildren nc (sliceScan nc r s e))
        (ls' ++ lcs) hF' hm'
      refine ⟨sliceScan nc r s e ++ b, ?_, ?_⟩
      · rw [bfsRef_succ, hb]
        rfl
      · simp only [List.map_cons, List.flatten_cons]
        have hb1 : (sliceScan nc r s e ++ b).Perm
            (sliceScan nc r s e ++
              ((ls'.map (fun lq =>
                lq.filter (fun i => overlapB r (getIv nc i)))).flatten ++
               (lcs.map (fun lc =>
                lc.filter (fun i => overlapB r (getIv nc i)))).flatten)) := by
          refine List.Perm.append_left _ ?_
          refine hbperm.trans ?_
          rw [List.map_append, List.flatten_append]
        refine hb1.trans ?_
        have hb2 : (sliceScan nc r s e ++
            ((ls'.map (fun lq =>
              lq.filter (fun i => overlapB r (getIv nc i)))).flatten ++
             (lcs.map (fun lc =>
              lc.filter (fun i => overlapB r (getIv nc i)))).flatten)).Perm
            (sliceScan nc r s e ++
              ((lcs.map (fun lc =>
                lc.filter (fun i => overlapB r (getIv nc i)))).flatten ++
               (ls'.map (fun lq =>
                lq.filter (fun i => overlapB r (getIv nc i)))).flatten)) :=
          List.Perm.append_left _ List.perm_append_comm
        refine hb2.trans ?_
        rw [← List.append_assoc]
        exact List.Perm.append_right _ hperm.symm

/-! ### The unordered iterator implements the breadth-first traversal -/

theorem overlapsNextAux_none (nc : NClist) (r : Iv) :
    ∀ queue pos e, overlapsNextAux nc r queue pos e = none →
      curScan nc r pos e = [] ∧ BfsIs nc r queue [] := by
  intro queue
  induction queue with
  | nil =>
    intro pos e h
    simp only [overlapsNextAux] at h
    by_cases hs : e - pos = 0 ∨ r.stop ≤ (getIv nc pos).start
    · exact ⟨curScan_nil nc r hs, ⟨0, bfsRef_nil nc r 0⟩⟩
    · rw [if_neg hs] at h
      rcases hcl : childLink nc pos with _ | se <;> rw [hcl] at h <;> cases h
  | cons hd rest IH =>
    intro pos e h
    rcases hd with ⟨s', e'⟩
    simp only [overlapsNextAux] at h
    by_cases hs : e - pos = 0 ∨ r.stop ≤ (getIv nc pos).start
    · rw [if_pos hs] at h
      obtain ⟨hcs', hbfs⟩ := IH (skipTo nc s' e' r.start) e' h
      refine ⟨curScan_nil nc r hs, ?_⟩
      obtain ⟨f, hf⟩ := hbfs
      refine ⟨f + 1, ?_⟩
      rw [bfsRef_succ, show sliceScan nc r s' e' = [] from hcs',
        show scanChildren nc ([] : List Nat) = [] from rfl, List.append_nil, hf]
      rfl
    · rw [if_neg hs] at h
      rcases hcl : childLink nc pos with _ | se <;> rw [hcl] at h <;> cases h

theorem overlapsNextAux_sound (nc : NClist) (r : Iv) :
    ∀ queue pos e i st', overlapsNextAux nc r queue pos e = some (i, st') →
      ∀ out', OvDen nc r st' out' → OvDen nc r ⟨pos, e, queue⟩ (i :: out') := by
  intro queue
  induction queue with
  | nil =>
    intro pos e i st' h out' hden
    simp only [overlapsNextAux] at h
    by_cases hs : e - pos = 0 ∨ r.stop ≤ (getIv nc pos).start
    · rw [if_pos hs] at h; cases h
    · rw [if_neg hs] at h
      rcases not_or.mp hs with ⟨hp, hq⟩
      have hpos : pos < e := by omega
      have hstart : (getIv nc pos).start < r.stop := by omega
      rcases hcl : childLink nc pos with _ | se <;> rw [hcl] at h <;>
        injection h with h <;> injection h with h1 h2 <;> subst h1 <;> subst h2 <;>
        obtain ⟨b, hbfs, hout⟩ := hden
      · refine ⟨b, ?_, ?_⟩
        · rw [curScan_cons nc r hpos hstart, scanChildren_cons, hcl]
          simpa using hbfs
        · rw [curScan_cons nc r hpos hstart, hout]
          simp
      · refine ⟨b, ?_, ?_⟩
        · rw [curScan_cons nc r hpos hstart, scanChildren_cons, hcl]
          simpa using hbfs
        · rw [curScan_cons nc r hpos hstart, hout]
          simp
  | cons hd rest IH =>
    intro pos e i st' h out' hden
    rcases hd with ⟨s', e'⟩
    simp only [overlapsNextAux] at h
    by_cases hs : e - pos = 0 ∨ r.stop ≤ (getIv nc pos).start
    · rw [if_pos hs] at h
      obtain ⟨b, hbfs, hout⟩ := IH (skipTo nc s' e' r.start) e' i st' h out' hden
      have hcs : curScan nc r pos e = [] := curScan_nil nc r hs
      refine ⟨i :: out', ?_, ?_⟩
      · have hmain : BfsIs nc r ((s', e') :: rest) (sliceScan nc r s' e' ++ b) :=
          BfsIs_cons_intro hbfs
        rw [hcs, show scanChildren nc ([] : List Nat) = [] from rfl,
          List.append_nil, hout]
        exact hmain
      · rw [hcs]
        simp
    · rw [if_neg hs] at h
      rcases not_or.mp hs with ⟨hp, hq⟩
      have hpos : pos < e := by omega
      have hstart : (getIv nc pos).start < r.stop := by omega
      rcases hcl : childLink nc pos with _ | se <;> rw [hcl] at h <;>
        injection h with h <;> injection h with h1 h2 <;> subst h1 <;> subst h2 <;>
        obtain ⟨b, hbfs, hout⟩ := hden
      · refine ⟨b, ?_, ?_⟩
        · rw [curScan_cons nc r hpos hstart, scanChildren_cons, hcl]
          simpa using hbfs
        · rw [curScan_cons nc r hpos hstart, hout]
          simp
      · refine ⟨b, ?_, ?_⟩
        · rw [curScan_cons nc r hpos hstart, scanChildren_cons, hcl]
          rw [← List.append_assoc]
          exact hbfs
        · rw [curScan_cons nc r hpos hstart, hout]
          simp

theorem runOverlaps_den (nc : NClist) (r : Iv) :
    ∀ f st out, runOverlaps nc r f st = some out → OvDen nc r st out := by
  intro f
  induction f with
  | zero => intro st out h; cases h
  | succ f IH =>
    intro st out h
    simp only [runOverlaps] at h
    rcases hn : overlapsNext nc r st with _ | ⟨i, st'⟩
    · rw [hn] at h
      injection h with h
      obtain ⟨hcs, hbfs⟩ :=
        overlapsNextAux_none nc r st.sublists st.current_pos st.current_end hn
      refine ⟨[], ?_, ?_⟩
      · rw [hcs, show scanChildren nc ([] : List Nat) = [] from rfl, List.append_nil]
        exact hbfs
      · rw [← h, hcs]
        simp
    · have h' : Option.map (fun x => i :: x) (runOverlaps nc r f st') = some out := by
        rw [hn] at h
        exact h
      rcases ho : runOverlaps nc r f st' with _ | out'
      · rw [ho] at h'; cases h'
      · rw [ho] at h'
        injection h' with h'
        rw [← h']
        exact overlapsNextAux_sound nc r st.sublists st.current_pos st.current_end
          i st' hn out' (IH st' out' ho)

theorem overlapsNextAux_complete (nc : NClist) (r : Iv) :
    ∀ queue pos e i out', OvDen nc r ⟨pos, e, queue⟩ (i :: out') →
      ∃ st', overlapsNextAux nc r queue pos e = some (i, st') ∧
        OvDen nc r st' out' := by
  intro queue
  induction queue with
  | nil =>
    intro pos e i out' hden
    obtain ⟨b, hbfs, hout⟩ := hden
    by_cases hs : e - pos = 0 ∨ r.stop ≤ (getIv nc pos).start
    · have hcs : curScan nc r pos e = [] := curScan_nil nc r hs
      rw [hcs] at hbfs hout
      obtain ⟨f, hf⟩ := hbfs
      have hf' : bfsRef nc r f [] = some b := hf
      rw [bfsRef_nil] at hf'
      injection hf' with hf'
      rw [← hf'] at hout
      cases hout
    · rcases not_or.mp hs with ⟨hp, hq⟩
      have hpos : pos < e := by omega
      have hstart : (getIv nc pos).start < r.stop := by omega
      rw [curScan_cons nc r hpos hstart] at hbfs hout
      have hout2 : i :: out' = pos :: (curScan nc r (pos + 1) e ++ b) := by
        simpa using hout
      injection hout2 with hi hrest
      rw [hi]
      simp only [overlapsNextAux]
      rw [if_neg hs]
      rw [scanChildren_cons] at hbfs
      rcases hcl : childLink nc pos with _ | se <;> rw [hcl] at hbfs
      · exact ⟨⟨pos + 1, e, []⟩, rfl, b, by simpa using hbfs, hrest⟩
      · exact ⟨⟨pos + 1, e, [se]⟩, rfl, b, by simpa using hbfs, hrest⟩
  | cons hd rest IH =>
    intro pos e i out' hden
    rcases hd with ⟨s', e'⟩
    obtain ⟨b, hbfs, hout⟩ := hden
    by_cases hs : e - pos = 0 ∨ r.stop ≤ (getIv nc pos).start
    · have hcs : curScan nc r pos e = [] := curScan_nil nc r hs
      rw [hcs] at hbfs hout
      have hbfs' : BfsIs nc r ((s', e') :: rest) b := by
        rw [show scanChildren nc ([] : List Nat) = [] from rfl] at hbfs
        simpa using hbfs
      have hb : b = i :: out' := by simpa using hout.symm
      rw [hb] at hbfs'
      obtain ⟨b2, hbfs2, hsplit⟩ := BfsIs_cons_elim hbfs'
      have hden' : OvDen nc r ⟨skipTo nc s' e' r.start, e', rest⟩ (i :: out') :=
        ⟨b2, hbfs2, hsplit⟩
      obtain ⟨st', hstep, hden2⟩ := IH (skipTo nc s' e' r.start) e' i out' hden'
      refine ⟨st', ?_, hden2⟩
      simp only [overlapsNextAux]
      rw [if_pos hs]
      exact hstep
    · rcases not_or.mp hs with ⟨hp, hq⟩
      have hpos : pos < e := by omega
      have hstart : (getIv nc pos).start < r.stop := by omega
      rw [curScan_cons nc r hpos hstart] at hbfs hout
      have hout2 : i :: out' = pos :: (curScan nc r (pos + 1) e ++ b) := by
        simpa using hout
      injection hout2 with hi hrest
      rw [hi]
      simp only [overlapsNextAux]
      rw [if_neg hs]
      rw [scanChildren_cons] at hbfs
      rcases hcl : childLink nc pos with _ | se <;> rw [hcl] at hbfs
      · refine ⟨⟨pos + 1, e, (s', e') :: rest⟩, rfl, b, ?_, hrest⟩
        simpa using hbfs
      · refine ⟨⟨pos + 1, e, ((s', e') :: rest) ++ [se]⟩, rfl, b, ?_, hrest⟩
        simpa using hbfs

theorem ovDen_nil_none (nc : NClist) (r : Iv) :
    ∀ queue pos e, OvDen nc r ⟨pos, e, queue⟩ [] →
      overlapsNextAux nc r queue pos e = none := by
  intro queue
  induction queue with
  | nil =>
    intro pos e hden
    obtain ⟨b, hbfs, hout⟩ := hden
    obtain ⟨h1, h2⟩ := List.append_eq_nil.mp hout.symm
    simp only [overlapsNextAux]
    by_cases hs : e - pos = 0 ∨ r.stop ≤ (getIv nc pos).start
    · rw [if_pos hs]
    · exfalso
      rcases not_or.mp hs with ⟨hp, hq⟩
      have h1' : curScan nc r pos e = [] := h1
      rw [curScan_cons nc r (by omega : pos < e)
        (by omega : (getIv nc pos).start < r.stop)] at h1'
      cases h1'
  | cons hd rest IH =>
    intro pos e hden
    rcases hd with ⟨s', e'⟩
    obtain ⟨b, hbfs, hout⟩ := hden
    obtain ⟨h1, h2⟩ := List.append_eq_nil.mp hout.symm
    simp only [overlapsNextAux]
    by_cases hs : e - pos = 0 ∨ r.stop ≤ (getIv nc pos).start
    · rw [if_pos hs]
      rw [h1, h2] at hbfs
      have hbfs' : BfsIs nc r ((s', e') :: rest) [] := by
        rw [show scanChildren nc ([] : List Nat) = [] from rfl] at hbfs
        simpa using hbfs
      obtain ⟨b2, hbfs2, hsplit⟩ := BfsIs_cons_elim hbfs'
      obtain ⟨hsl, hb2⟩ := List.append_eq_nil.mp hsplit.symm
      apply IH
      refine ⟨b2, hbfs2, ?_⟩
      rw [hb2, show curScan nc r (skipTo nc s' e' r.start) e' = [] from hsl]
      rfl
    · exfalso
      rcases not_or.mp hs with ⟨hp, hq⟩
      have h1' : curScan nc r pos e = [] := h1
      rw [curScan_cons nc r (by omega : pos < e)
        (by omega : (getIv nc pos).start < r.stop)] at h1'
      cases h1'

theorem runOverlaps_complete (nc : NClist) (r : Iv) :
    ∀ out st, OvDen nc r st out → ∃ f, runOverlaps nc r f st = some out := by
  intro out
  induction out with
  | nil =>
    intro st hden
    refine ⟨1, ?_⟩
    simp only [runOverlaps]
    rw [show overlapsNext nc r st = none from
      ovDen_nil_none nc r st.sublists st.current_pos st.current_end hden]
  | cons i out' IH =>
    intro st hden
    obtain ⟨st', hstep, hden'⟩ :=
      overlapsNextAux_complete nc r st.sublists st.current_pos st.current_end
        i out' hden
    obtain ⟨f, hf⟩ := IH st' hden'
    refine ⟨f + 1, ?_⟩
    have hmain : runOverlaps nc r (f + 1) st
        = Option.map (fun x => i :: x) (runOverlaps nc r f st') := by
      simp only [runOverlaps]
      rw [show overlapsNext nc r st = some (i, st') from hstep]
    rw [hmain, hf]
    rfl

theorem ORun_to_bfs {nc : NClist} {r : Iv} {out : List Nat} (h : ORun nc r out)
    (hr : r.start < r.stop) : BfsIs nc r [rootLink nc] out := by
  obtain ⟨f, hf⟩ := h
  obtain ⟨b, hbfs, hout⟩ := runOverlaps_den nc r f _ out hf
  have hinit : overlapsInit nc r
      = ⟨skipTo nc (rootLink nc).1 (rootLink nc).2 r.start, (rootLink nc).2, []⟩ := by
    simp only [overlapsInit, if_pos hr]
  rw [hinit] at hbfs hout
  have hbfs' : BfsIs nc r (([] : List (Nat × Nat)) ++ scanChildren nc
      (sliceScan nc r (rootLink nc).1 (rootLink nc).2)) b := hbfs
  rw [hout]
  exact BfsIs_cons_intro hbfs'

theorem bfs_to_ORun {nc : NClist} {r : Iv} {out : List Nat}
    (h : BfsIs nc r [rootLink nc] out) (hr : r.start < r.stop) : ORun nc r out := by
  have h' : BfsIs nc r (((rootLink nc).1, (rootLink nc).2) :: []) out := h
  obtain ⟨b, hbfs, hsplit⟩ := BfsIs_cons_elim h'
  apply runOverlaps_complete
  have hinit : overlapsInit nc r
      = ⟨skipTo nc (rootLink nc).1 (rootLink nc).2 r.start, (rootLink nc).2, []⟩ := by
    simp only [overlapsInit, if_pos hr]
  rw [hinit]
  exact ⟨b, hbfs, hsplit⟩

/-! ### count_overlaps is the length of the breadth-first traversal -/

theorem runCount_eq (nc : NClist) (r : Iv) : ∀ f qs acc,
    runCount nc r f qs acc
      = (bfsRef nc r f qs).map (fun out => acc + out.length) := by
  intro f
  induction f with
  | zero =>
    intro qs acc
    match qs with
    | [] => rw [bfsRef_nil]; rfl
    | q :: rest => rfl
  | succ f IH =>
    intro qs acc
    match qs with
    | [] => rw [bfsRef_nil]; rfl
    | (s, e) :: rest =>
      rw [show runCount nc r (f + 1) ((s, e) :: rest) acc
          = runCount nc r f (rest ++ scanChildren nc (sliceScan nc r s e))
              (acc + (sliceScan nc r s e).length) from rfl]
      rw [IH, bfsRef_succ]
      rcases hb : bfsRef nc r f (rest ++ scanChildren nc (sliceScan nc r s e))
        with _ | b
      · rfl
      · simp only [Option.map]
        congr 1
        simp
        omega

theorem CRun_iff_valid {nc : NClist} {r : Iv} {c : Nat} (hr : r.start < r.stop) :
    CRun nc r c ↔ ∃ out, BfsIs nc r [rootLink nc] out ∧ c = out.length := by
  constructor
  · rintro ⟨f, hf⟩
    simp only [countOverlapsF, if_neg (by omega : ¬ r.stop ≤ r.start)] at hf
    rw [runCount_eq] at hf
    rcases hb : bfsRef nc r f [rootLink nc] with _ | out
    · rw [hb] at hf; cases hf
    · rw [hb] at hf
      injection hf with hf
      have hc : c = out.length := by
        have h2 := hf.symm
        simpa using h2
      exact ⟨out, ⟨f, hb⟩, hc⟩
  · rintro ⟨out, ⟨f, hb⟩, hc⟩
    refine ⟨f, ?_⟩
    simp only [countOverlapsF, if_neg (by omega : ¬ r.stop ≤ r.start)]
    rw [runCount_eq, hb, hc]
    simp

/-! ### Behavior on inverted queries (shared helpers) -/

theorem CRun_inverted {nc : NClist} {r : Iv} {c : Nat} (hr : r.stop ≤ r.start)
    (h : CRun nc r c) : c = 0 := by
  obtain ⟨f, hf⟩ := h
  simp only [countOverlapsF, if_pos hr] at hf
  injection hf with hf
  exact hf.symm

theorem ORun_inverted {nc : NClist} {r : Iv} {out : List Nat}
    (hr : r.stop ≤ r.start) (h : ORun nc r out) : out = [] := by
  obtain ⟨f, hf⟩ := h
  simp only [overlapsInit, if_neg (by omega : ¬ r.start < r.stop)] at hf
  exact runOverlaps_empty_state nc r _ _ rfl f out hf

theorem DRun_inverted {nc : NClist} {r : Iv} {out : List Nat}
    (hr : r.stop ≤ r.start) (h : DRun nc r out) : out = [] := by
  obtain ⟨f, hf⟩ := h
  simp only [orderedInit, if_pos hr] at hf
  have hskip : skipTo nc (rootLink nc).2 (rootLink nc).2 r.start
      = (rootLink nc).2 := by
    simp [skipTo, binSearchEnd, sliceEnds, searchIdx, rustBinarySearch]
  rw [hskip] at hf
  match f with
  | 0 => cases hf
  | f + 1 =>
    simp only [runOrdered, orderedNext, orderedNextAux] at hf
    rw [if_neg (by omega)] at hf
    injection hf with hf
    exact hf.symm

/-- Filtering commutes with reading indices off through `getIv`. -/
theorem map_getIv_filter (nc : NClist) (r : Iv) (L : List Nat) :
    (L.filter (fun i => overlapB r (getIv nc i))).map (getIv nc)
      = (L.map (getIv nc)).filter (overlapB r) := by
  induction L with
  | nil => rfl
  | cons a t ih =>
    simp only [List.filter_cons, List.map_cons]
    cases hov : overlapB r (getIv nc a) <;> simp [hov, ih]

/-- The breadth-first reading of a built structure's root queue is, as a
multiset, the overlapping part of the sorted input. -/
theorem bfs_root_perm (v : List Iv) (nc : NClist) (r : Iv) (out : List Nat)
    (h : fromVec v = .ok nc) (hb : BfsIs nc r [rootLink nc] out) :
    (out.map (getIv nc)).Perm ((v.insertionSort sortRel).filter (overlapB r)) := by
  have hWF := fromVec_WF h
  obtain ⟨L, hsub, hmap⟩ := fromVec_root v nc h
  have hF : List.Forall₂
      (fun (q : Nat × Nat) lq => IsLink nc q ∧ SubtreeIs nc q.1 q.2 lq)
      [rootLink nc] [L] :=
    List.Forall₂.cons ⟨⟨0, hWF.root⟩, hsub⟩ List.Forall₂.nil
  obtain ⟨out0, hrun0, hperm0⟩ := bfs_run nc r hWF (L.length + 1)
    [rootLink nc] [L] hF (by simp)
  have heq : out = out0 := BfsIs_det hb ⟨_, hrun0⟩
  have hperm : out.Perm (L.filter (fun i => overlapB r (getIv nc i))) := by
    rw [heq]
    simpa using hperm0
  refine (hperm.map (getIv nc)).trans ?_
  rw [map_getIv_filter nc r L, hmap]

/-! ### The claims about the three query operations -/

/-- C1 (corrected): for an index built from a valid collection and a query
interval with `start < end`, the unordered `overlaps` iterator yields exactly
the multiset of stored elements that overlap the query under half-open
semantics — no overlapping element is skipped and no non-overlapping element
is yielded.  The claim's "every query interval" fails for inverted queries
(`end <= start`), where the iterator is empty even when stored elements
satisfy the overlap formula: see `overlaps_multiset_counterexample`. -/
theorem overlaps_exact_multiset (v : List Iv) (nc : NClist) (r : Iv)
    (out : List Nat) (h : fromVec v = .ok nc) (hr : r.start < r.stop)
    (ho : ORun nc r out) :
    (out.map (getIv nc)).Perm (nc.intervals.filter (overlapB r)) := by
  have hb := ORun_to_bfs ho hr
  refine (bfs_root_perm v nc r out h hb).trans ?_
  refine List.Perm.filter _ ?_
  exact (List.perm_insertionSort sortRel v).trans (fromVec_perm h).symm

/-- Witness for C1 at the structure built from the crate's
`duplicate_intervals` input and the query `[11, 17)`. -/
theorem overlaps_exact_multiset_witness :
    (([1, 2, 3, 4, 5] : List Nat).map (getIv ncEx)).Perm
      (ncEx.intervals.filter (overlapB ⟨11, 17⟩)) :=
  overlaps_exact_multiset vEx ncEx ⟨11, 17⟩ [1, 2, 3, 4, 5] (by decide) (by decide)
    ⟨7, by decide⟩

/-- Counterexample to C1 as literally stated (for *every* query interval): on
the structure built from `[[0,10)]`, the inverted query `[5,5)` yields
nothing although the stored element `[0,10)` satisfies the half-open overlap
formula (`0 < 5` and `5 < 10`), so no run of the iterator yields the overlap
multiset. -/
theorem overlaps_multiset_counterexample :
    fromVec [⟨0, 10⟩] = .ok ncOne ∧
    ORun ncOne ⟨5, 5⟩ [] ∧
    overlapB ⟨5, 5⟩ ⟨0, 10⟩ = true ∧
    ¬ ∃ out, ORun ncOne ⟨5, 5⟩ out ∧
      (out.map (getIv ncOne)).Perm (ncOne.intervals.filter (overlapB ⟨5, 5⟩)) := by
  refine ⟨by decide, ⟨1, by decide⟩, by decide, ?_⟩
  rintro ⟨out, ho, hperm⟩
  rw [ORun_inverted (by decide) ho] at hperm
  exact absurd hperm (by decide)

/-- C2: on an index built from a valid collection, the three query operations
agree on the number of matches for every query interval: whenever
`count_overlaps` terminates with `c` and the unordered and ordered iterators,
run to exhaustion, yield `out` and `out'`, then `c = |out| = |out'|`. -/
theorem counts_agree (v : List Iv) (nc : NClist) (r : Iv) (c : Nat)
    (out out' : List Nat) (h : fromVec v = .ok nc) (hc : CRun nc r c)
    (ho : ORun nc r out) (hd : DRun nc r out') :
    c = out.length ∧ out.length = out'.length := by
  by_cases hr : r.start < r.stop
  · have hWF := fromVec_WF h
    obtain ⟨L, hsub, hmap⟩ := fromVec_root v nc h
    have htarget := dfs_correct_link nc r hWF hWF.root hsub
    have hdfs := DRun_to_dfs hd hr
    have hd0 : out' = L.filter (fun i => overlapB r (getIv nc i)) :=
      DfsIs_det hdfs htarget
    have hbo := ORun_to_bfs ho hr
    have hperm := bfs_root_perm v nc r out h hbo
    obtain ⟨outc, hbc, hcc⟩ := (CRun_iff_valid hr).mp hc
    have hoc : outc = out := BfsIs_det hbc hbo
    have h1 : out.length = ((v.insertionSort sortRel).filter (overlapB r)).length := by
      have := hperm.length_eq
      simpa using this
    have hfm : (L.filter (fun i => overlapB r (getIv nc i))).map (getIv nc)
        = (v.insertionSort sortRel).filter (overlapB r) := by
      rw [map_getIv_filter nc r L, hmap]
    have h2 : out'.length
        = ((v.insertionSort sortRel).filter (overlapB r)).length := by
      rw [hd0, ← hfm]
      simp
    constructor
    · rw [hcc, hoc]
    · omega
  · have hr' : r.stop ≤ r.start := by omega
    rw [CRun_inverted hr' hc, ORun_inverted hr' ho, DRun_inverted hr' hd]
    simp

/-- Witness for C2 at the built `ncEx` and the query `[11, 17)`: the count is
`5` and both iterators yield five elements. -/
theorem counts_agree_witness :
    (5 : Nat) = ([1, 2, 3, 4, 5] : List Nat).length ∧
    ([1, 2, 3, 4, 5] : List Nat).length = ([1, 2, 4, 5, 3] : List Nat).length :=
  counts_agree vEx ncEx ⟨11, 17⟩ 5 [1, 2, 3, 4, 5] [1, 2, 4, 5, 3] (by decide)
    ⟨5, by decide⟩ ⟨7, by decide⟩ ⟨8, by decide⟩

/-- C3: on an index built from a valid collection, `overlaps_ordered` yields
exactly the overlapping elements of the comparator-sorted input, in that
order — hence non-decreasing start coordinates, with equal-start duplicates
in construction order (owner, sorted before its nested elements, first); an
inverted query yields nothing.  In particular, on the input
`[10,15), [11,13), [10,20), [1,8), [11,13), [16,18)` (built as `ncEx`, whose
element order is `[1,8), [10,20), [10,15), [16,18), [11,13), [11,13)`), the
query `[11,17)` yields exactly indices `[1, 2, 4, 5, 3]`, i.e. the elements
`[10,20), [10,15), [11,13), [11,13), [16,18)`. -/
theorem ordered_exact (v : List Iv) (nc : NClist) (r : Iv) (out : List Nat)
    (h : fromVec v = .ok nc) (hd : DRun nc r out) :
    (r.start < r.stop →
      out.map (getIv nc) = (v.insertionSort sortRel).filter (overlapB r)) ∧
    (r.stop ≤ r.start → out = []) ∧
    (out.map (getIv nc)).Pairwise (fun a b => a.start ≤ b.start) ∧
    DRun ncEx ⟨11, 17⟩ [1, 2, 4, 5, 3] ∧
    ([1, 2, 4, 5, 3] : List Nat).map (getIv ncEx)
      = [⟨10, 20⟩, ⟨10, 15⟩, ⟨11, 13⟩, ⟨11, 13⟩, ⟨16, 18⟩] ∧
    (∀ out2, DRun ncEx ⟨11, 17⟩ out2 → out2 = [1, 2, 4, 5, 3]) := by
  have hWF := fromVec_WF h
  obtain ⟨L, hsub, hmap⟩ := fromVec_root v nc h
  have hmain : r.start < r.stop →
      out.map (getIv nc) = (v.insertionSort sortRel).filter (overlapB r) := by
    intro hr
    have htarget := dfs_correct_link nc r hWF hWF.root hsub
    have hdfs := DRun_to_dfs hd hr
    have hd0 : out = L.filter (fun i => overlapB r (getIv nc i)) :=
      DfsIs_det hdfs htarget
    rw [hd0, map_getIv_filter nc r L, hmap]
  refine ⟨hmain, fun hr => DRun_inverted hr hd, ?_, ⟨8, by decide⟩, by decide, ?_⟩
  · by_cases hr : r.start < r.stop
    · rw [hmain hr]
      have hs : (v.insertionSort sortRel).Pairwise sortRel :=
        List.sorted_insertionSort sortRel v
      exact (hs.filter _).imp (fun hab => sortRel_start_le hab)
    · rw [DRun_inverted (by omega) hd]
      simp
  · intro out2 hd2
    have h1 := DRun_to_dfs hd2 (by decide)
    have h2 := DRun_to_dfs
      (⟨8, by decide⟩ : DRun ncEx ⟨11, 17⟩ [1, 2, 4, 5, 3]) (by decide)
    exact DfsIs_det h1 h2

/-- Witness for C3: the general theorem instantiated at the crate's
`duplicate_intervals` fixture and the query `[11, 17)`. -/
theorem ordered_exact_witness :
    ((Iv.mk 11 17).start < (Iv.mk 11 17).stop →
      ([1, 2, 4, 5, 3] : List Nat).map (getIv ncEx)
        = (vEx.insertionSort sortRel).filter (overlapB ⟨11, 17⟩)) ∧
    ((Iv.mk 11 17).stop ≤ (Iv.mk 11 17).start →
      ([1, 2, 4, 5, 3] : List Nat) = []) ∧
    (([1, 2, 4, 5, 3] : List Nat).map (getIv ncEx)).Pairwise
      (fun a b => a.start ≤ b.start) ∧
    DRun ncEx ⟨11, 17⟩ [1, 2, 4, 5, 3] ∧
    ([1, 2, 4, 5, 3] : List Nat).map (getIv ncEx)
      = [⟨10, 20⟩, ⟨10, 15⟩, ⟨11, 13⟩, ⟨11, 13⟩, ⟨16, 18⟩] ∧
    (∀ out2, DRun ncEx ⟨11, 17⟩ out2 → out2 = [1, 2, 4, 5, 3]) :=
  ordered_exact vEx ncEx ⟨11, 17⟩ [1, 2, 4, 5, 3] (by decide) ⟨8, by decide⟩

/-- C9: the unordered iterator's output is exactly the breadth-first
slice-level reference traversal seeded with the root link — every popped
slice's matches are emitted as one contiguous chunk before any element of the
sub-slices that chunk enqueued — and no ascending-start order is guaranteed
overall: on the built `ncEx`, the query `[5, 20)` yields the elements with
starts `1, 10, 10, 16, 11, 11`. -/
theorem overlaps_bfs_order (v : List Iv) (nc : NClist) (r : Iv) (out : List Nat)
    (_h : fromVec v = .ok nc) (ho : ORun nc r out) :
    (r.start < r.stop → BfsIs nc r [rootLink nc] out) ∧
    (r.stop ≤ r.start → out = []) ∧
    ORun ncEx ⟨5, 20⟩ [0, 1, 2, 3, 4, 5] ∧
    ¬ (([0, 1, 2, 3, 4, 5] : List Nat).map (getIv ncEx)).Pairwise
      (fun a b => a.start ≤ b.start) := by
  refine ⟨fun hr => ORun_to_bfs ho hr, fun hr => ORun_inverted hr ho,
    ⟨9, by decide⟩, by decide⟩

/-- Witness for C9: the general theorem instantiated at the built `ncEx` and
the query `[11, 17)`. -/
theorem overlaps_bfs_order_witness :
    ((Iv.mk 11 17).start < (Iv.mk 11 17).stop →
      BfsIs ncEx ⟨11, 17⟩ [rootLink ncEx] [1, 2, 3, 4, 5]) ∧
    ((Iv.mk 11 17).stop ≤ (Iv.mk 11 17).start →
      ([1, 2, 3, 4, 5] : List Nat) = []) ∧
    ORun ncEx ⟨5, 20⟩ [0, 1, 2, 3, 4, 5] ∧
    ¬ (([0, 1, 2, 3, 4, 5] : List Nat).map (getIv ncEx)).Pairwise
      (fun a b => a.start ≤ b.start) :=
  overlaps_bfs_order vEx ncEx ⟨11, 17⟩ [1, 2, 3, 4, 5] (by decide) ⟨7, by decide⟩

end NC
